import Mathlib

/-!
Path subdivision (`src/native/subdivide/subdivide.cpp`).

A shallow embedding of the polyline refinement routine and the properties of it
that the specification states.

Modelling conventions.

* `double` is an arbitrary linearly ordered field `α` with a floor function
  (`ℝ` in every concrete instance below).  The two
  `<cmath>` functions that are not field operations, `std::sqrt` and
  `std::acos`, and the constant `M_PI` are passed in as a record `CMath α`;
  statements that need `sqrt` to be the exact square root say so with the
  hypothesis `ExactSqrt`.
  Rounding is therefore not modelled: every numeric statement below is a
  statement about exact arithmetic.
* `std::vector<Pt>` is `List (Pt α)`.
* `int` values (`splits`, `s`, `nPts`, `outPts`) are mathematical integers.
  The target is 32-bit WebAssembly, where a `std::vector<Pt>` holds fewer than
  `2^27` elements, so every `int` the program computes on a run that returns
  is in range.
* Pointers: `xy` is `none` for `nullptr` and otherwise the doubles readable
  through it, indexed from `0`; `outLenPts` is `IntPtr.null` or
  `IntPtr.valid`; the returned buffer is `none` for `nullptr` and otherwise the
  doubles written to it.
-/

set_option linter.unusedSectionVars false
set_option linter.unusedVariables false

namespace Subdivide

/-- The point type `struct Pt { double x; double y; }` (line 10). -/
structure Pt (α : Type) where
  x : α
  y : α
deriving DecidableEq, Repr

/-- What the program takes from `<cmath>` that is not a field operation: the
functions `std::sqrt` and `std::acos` and the constant `M_PI` (lines 6-8 define
it as `3.14159265358979323846` only if `<cmath>` has not).  In double
arithmetic `M_PI` is the double nearest to `π`, the value `acos(-1.0)`
returns; the exact-arithmetic instance is `Real.sqrt`, `Real.arccos`, `π`. -/
structure CMath (α : Type) where
  sqrt : α → α
  acos : α → α
  M_PI : α

section Defs

variable {α : Type} [LinearOrderedField α] [FloorRing α]

/-- The function `distance` (lines 12-16). -/
def distance (m : CMath α) (a b : Pt α) : α :=
  let dx := b.x - a.x
  let dy := b.y - a.y
  m.sqrt (dx * dx + dy * dy)

/-- The function `turn_angle_deg` (lines 18-30). -/
def turn_angle_deg (m : CMath α) (prev curr next : Pt α) : α :=
  let v1x := curr.x - prev.x
  let v1y := curr.y - prev.y
  let v2x := next.x - curr.x
  let v2y := next.y - curr.y
  let dot := v1x * v2x + v1y * v2y
  let n1 := m.sqrt (v1x * v1x + v1y * v1y)
  let n2 := m.sqrt (v2x * v2x + v2y * v2y)
  if n1 = 0 ∨ n2 = 0 then 0
  else
    let c := dot / (n1 * n2)
    let c := if c > 1 then 1 else if c < -1 then -1 else c
    m.acos c * 180 / m.M_PI

/-- The loop `for (int s = 1; s <= splits; ++s)` of lines 44-48: the points pushed
for the pair `(a, b)` when `splits > 0`. -/
def split_points (a b : Pt α) (splits : Int) : List (Pt α) :=
  let step : α := 1 / ((splits + 1 : Int) : α)
  (List.range splits.toNat).map fun (k : Nat) =>
    let s : Int := (k : Int) + 1
    let t : α := step * (s : α)
    { x := a.x + (b.x - a.x) * t, y := a.y + (b.y - a.y) * t }

/-- Lines 40-50: everything pushed after `a` while the pair `(a, b)` is handled. -/
def inserted_points (m : CMath α) (a b : Pt α) (maxSegLen : α) : List (Pt α) :=
  let len := distance m a b
  if len > maxSegLen then
    let splits : Int := ⌈len / maxSegLen⌉ - 1
    if splits > 0 then split_points a b splits else []
  else []

/-- The loop `for (size_t i = 0; i + 1 < in.size(); ++i)` of lines 36-51, by
recursion on the part of `in` that starts at index `i`. -/
def long_segments_loop (m : CMath α) (maxSegLen : α) : List (Pt α) → List (Pt α)
  | a :: b :: rest =>
    a :: (inserted_points m a b maxSegLen ++ long_segments_loop m maxSegLen (b :: rest))
  | _ => []

/-- The function `subdivide_long_segments` (lines 32-55).  `in.back()` is pushed after the
loop; `in` is non-empty there. -/
def subdivide_long_segments (m : CMath α) (inp : List (Pt α)) (maxSegLen : α) : List (Pt α) :=
  if inp.length ≤ 1 ∨ maxSegLen ≤ 0 then inp
  else long_segments_loop m maxSegLen inp ++ inp.getLast?.toList

/-- The point `mid` of line 75, the midpoint of the segment `curr -> next`. -/
def mid (curr next : Pt α) : Pt α :=
  { x := (curr.x + next.x) * 0.5, y := (curr.y + next.y) * 0.5 }

/-- The loop `for (size_t i = 1; i + 1 < pts.size(); ++i)` of lines 67-79, by
recursion on the part of `pts` that starts at index `i - 1`.  The result is
what the loop pushes to `out` and the value it leaves in `inserted`. -/
def angle_loop (m : CMath α) (angleLimitDeg : α) : List (Pt α) → List (Pt α) × Bool
  | prev :: curr :: next :: rest =>
    let ang := turn_angle_deg m prev curr next
    let r := angle_loop m angleLimitDeg (curr :: next :: rest)
    if ang > angleLimitDeg then (curr :: mid curr next :: r.1, true)
    else (curr :: r.1, r.2)
  | _ => ([], false)

/-- One iteration of the pass loop (lines 63-81): the new `pts` and `inserted`.
`pts` has at least three elements whenever this runs. -/
def refine_pass (m : CMath α) (angleLimitDeg : α) (pts : List (Pt α)) : List (Pt α) × Bool :=
  let r := angle_loop m angleLimitDeg pts
  (pts.head?.toList ++ r.1 ++ pts.getLast?.toList, r.2)

/-- The loop `for (int pass = 0; pass < maxPasses; ++pass)` of lines 62-83 with
`passes` iterations left. -/
def refine_passes (m : CMath α) (angleLimitDeg : α) : Nat → List (Pt α) → List (Pt α)
  | 0, pts => pts
  | passes + 1, pts =>
    let r := refine_pass m angleLimitDeg pts
    if !r.2 then r.1 else refine_passes m angleLimitDeg passes r.1

/-- The constant of `const int maxPasses = 2;` (line 61). -/
def maxPasses : Nat := 2

/-- The function `refine_by_angle` (lines 57-85). -/
def refine_by_angle (m : CMath α) (inp : List (Pt α)) (angleLimitDeg : α) : List (Pt α) :=
  if inp.length ≤ 2 ∨ angleLimitDeg ≤ 0 then inp
  else refine_passes m angleLimitDeg maxPasses inp

/-- Lines 104-105 of `subdivide_path`: the two stages in sequence. -/
def pipeline (m : CMath α) (pts : List (Pt α)) (angleLimitDeg maxSegLen : α) : List (Pt α) :=
  let step1 := subdivide_long_segments m pts maxSegLen
  let step2 := refine_by_angle m step1 angleLimitDeg
  step2

/-- The argument `int* outLenPts`: `nullptr` or a pointer to a writable `int`. -/
inductive IntPtr where
  | null : IntPtr
  | valid : IntPtr
deriving DecidableEq, Repr

/-- What a call of `subdivide_path` does: it either stores through a null
`outLenPts` (undefined behaviour, a fault), or returns a buffer (`none` for
`nullptr`) having stored `outLen` through `outLenPts`. -/
inductive Outcome (α : Type) where
  | null_store : Outcome α
  | ret (buf : Option (List α)) (outLen : Int) : Outcome α
deriving DecidableEq, Repr

/-- The statement pair `*outLenPts = v; return buf;`. -/
def store_and_return (outLenPts : IntPtr) (v : Int) (buf : Option (List α)) : Outcome α :=
  match outLenPts with
  | IntPtr.null => Outcome.null_store
  | IntPtr.valid => Outcome.ret buf v

/-- Lines 96-102: the points read from `xy`. -/
def load_points (xy : Nat → α) (nPts : Int) : List (Pt α) :=
  (List.range nPts.toNat).map fun i => { x := xy (i * 2 + 0), y := xy (i * 2 + 1) }

/-- Lines 114-117: the doubles written to the output buffer. -/
def store_points (pts : List (Pt α)) : List α :=
  pts.flatMap fun p => [p.x, p.y]

/-- The entry point `subdivide_path` (lines 91-120).  `malloc bytes` tells whether the
allocation of `bytes` bytes succeeds; `sizeof(double)` is 8. -/
def subdivide_path (m : CMath α) (malloc : Nat → Bool) (xy : Option (Nat → α)) (nPts : Int)
    (angleLimitDeg maxSegLen : α) (outLenPts : IntPtr) : Outcome α :=
  match xy with
  | none => store_and_return outLenPts 0 none
  | some mem =>
    if nPts ≤ 0 ∨ outLenPts = IntPtr.null then store_and_return outLenPts 0 none
    else
      let pts := load_points mem nPts
      let step1 := subdivide_long_segments m pts maxSegLen
      let step2 := refine_by_angle m step1 angleLimitDeg
      let outPts : Int := (step2.length : Int)
      let bytes : Nat := outPts.toNat * 2 * 8
      if malloc bytes = false then store_and_return outLenPts 0 none
      else store_and_return outLenPts outPts (some (store_points step2))

/-- The point `a + (b - a) * t`, in the form of line 47. -/
def lerp (a b : Pt α) (t : α) : Pt α :=
  { x := a.x + (b.x - a.x) * t, y := a.y + (b.y - a.y) * t }

/-- The field `sqrt` is the exact non-negative square root on non-negative arguments, as
`Real.sqrt` is on `ℝ`. -/
def ExactSqrt (m : CMath α) : Prop :=
  ∀ x : α, 0 ≤ x → 0 ≤ m.sqrt x ∧ m.sqrt x * m.sqrt x = x

/-- Some interior vertex of the polyline `l` (a point `c` with predecessor `p`
and successor `n`) has a turn angle above `angleLimitDeg`. -/
def HasViolation (m : CMath α) (angleLimitDeg : α) (l : List (Pt α)) : Prop :=
  ∃ p c n : Pt α, [p, c, n] <:+: l ∧ turn_angle_deg m p c n > angleLimitDeg

/-- The point `x` lies behind `r` in the direction of `q`: `r - x` is a positive
multiple of `r - q`. -/
def Behind (q r x : Pt α) : Prop :=
  ∃ s : α, 0 < s ∧ r.x - x.x = s * (r.x - q.x) ∧ r.y - x.y = s * (r.y - q.y)

/-- Lines 19-28 of `turn_angle_deg` with their intermediate values kept: `none`
when line 26 returns early, otherwise the divisor `n1 * n2` of line 27 and the
value of `c` that line 29 passes to `acos`. -/
def turn_angle_trace (m : CMath α) (prev curr next : Pt α) : Option (α × α) :=
  let v1x := curr.x - prev.x
  let v1y := curr.y - prev.y
  let v2x := next.x - curr.x
  let v2y := next.y - curr.y
  let dot := v1x * v2x + v1y * v2y
  let n1 := m.sqrt (v1x * v1x + v1y * v1y)
  let n2 := m.sqrt (v2x * v2x + v2y * v2y)
  if n1 = 0 ∨ n2 = 0 then none
  else
    let c := dot / (n1 * n2)
    let c := if c > 1 then 1 else if c < -1 then -1 else c
    some (n1 * n2, c)

/-- The number of iterations of the pass loop (lines 62-83) that are executed,
with `passes` iterations left: the loop of `refine_passes`, counting. -/
def passes_run (m : CMath α) (angleLimitDeg : α) : Nat → List (Pt α) → Nat
  | 0, _ => 0
  | passes + 1, pts =>
    let r := refine_pass m angleLimitDeg pts
    if !r.2 then 1 else 1 + passes_run m angleLimitDeg passes r.1

/-- The number of passes a call of `refine_by_angle` executes: none when line 58
returns, otherwise those of the pass loop. -/
def refine_by_angle_passes (m : CMath α) (inp : List (Pt α)) (angleLimitDeg : α) : Nat :=
  if inp.length ≤ 2 ∨ angleLimitDeg ≤ 0 then 0
  else passes_run m angleLimitDeg maxPasses inp

/-- The number of interior vertices of the polyline whose turn angle exceeds
`angleLimitDeg`. -/
def count_violations (m : CMath α) (angleLimitDeg : α) : List (Pt α) → Nat
  | prev :: curr :: next :: rest =>
    (if turn_angle_deg m prev curr next > angleLimitDeg then 1 else 0) +
      count_violations m angleLimitDeg (curr :: next :: rest)
  | _ => 0

end Defs

section Lemmas

variable {α : Type} [LinearOrderedField α] [FloorRing α]

/-! ### Shape of the two loops -/

/-- What `subdivide_long_segments` returns past its guard: the loop's output
followed by `in.back()`. -/
theorem long_segments_single (m : CMath α) (maxSegLen : α) (a : Pt α) :
    long_segments_loop m maxSegLen [a] ++ [a].getLast?.toList = [a] := by
  simp [long_segments_loop]

theorem long_segments_cons_cons (m : CMath α) (maxSegLen : α) (a b : Pt α) (rest : List (Pt α)) :
    long_segments_loop m maxSegLen (a :: b :: rest) ++ (a :: b :: rest).getLast?.toList =
      a :: (inserted_points m a b maxSegLen ++
        (long_segments_loop m maxSegLen (b :: rest) ++ (b :: rest).getLast?.toList)) := by
  simp [long_segments_loop, List.getLast?_cons_cons]

theorem long_segments_head (m : CMath α) (maxSegLen : α) (a : Pt α) (l : List (Pt α)) :
    (long_segments_loop m maxSegLen (a :: l) ++ (a :: l).getLast?.toList).head? = some a := by
  cases l with
  | nil => simp [long_segments_loop]
  | cons b rest => rw [long_segments_cons_cons]; rfl

theorem long_segments_getLast (m : CMath α) (maxSegLen : α) (l : List (Pt α)) (h : l ≠ []) :
    (long_segments_loop m maxSegLen l ++ l.getLast?.toList).getLast? = l.getLast? := by
  obtain ⟨z, hz⟩ : ∃ z, l.getLast? = some z := by
    cases hl : l.getLast? with
    | none => exact absurd (List.getLast?_eq_none_iff.mp hl) h
    | some z => exact ⟨z, rfl⟩
  simp [hz]

theorem subdivide_long_segments_head (m : CMath α) (inp : List (Pt α)) (maxSegLen : α) :
    (subdivide_long_segments m inp maxSegLen).head? = inp.head? := by
  unfold subdivide_long_segments
  split
  · rfl
  · cases inp with
    | nil => simp [long_segments_loop]
    | cons a l => rw [long_segments_head]; rfl

theorem subdivide_long_segments_getLast (m : CMath α) (inp : List (Pt α)) (maxSegLen : α) :
    (subdivide_long_segments m inp maxSegLen).getLast? = inp.getLast? := by
  unfold subdivide_long_segments
  split
  · rfl
  · cases inp with
    | nil => simp [long_segments_loop]
    | cons a l => exact long_segments_getLast m maxSegLen (a :: l) (by simp)

theorem refine_pass_head (m : CMath α) (angleLimitDeg : α) (pts : List (Pt α)) :
    (refine_pass m angleLimitDeg pts).1.head? = pts.head? := by
  cases pts with
  | nil => simp [refine_pass, angle_loop]
  | cons a l => simp [refine_pass]

theorem refine_pass_getLast (m : CMath α) (angleLimitDeg : α) (pts : List (Pt α)) :
    (refine_pass m angleLimitDeg pts).1.getLast? = pts.getLast? := by
  cases hl : pts.getLast? with
  | none =>
    have : pts = [] := List.getLast?_eq_none_iff.mp hl
    subst this
    simp [refine_pass, angle_loop]
  | some z => simp [refine_pass, hl]

theorem refine_passes_head (m : CMath α) (angleLimitDeg : α) (passes : Nat) (pts : List (Pt α)) :
    (refine_passes m angleLimitDeg passes pts).head? = pts.head? := by
  induction passes generalizing pts with
  | zero => rfl
  | succ n ih =>
    simp only [refine_passes]
    split
    · exact refine_pass_head m angleLimitDeg pts
    · rw [ih, refine_pass_head]

theorem refine_passes_getLast (m : CMath α) (angleLimitDeg : α) (passes : Nat)
    (pts : List (Pt α)) :
    (refine_passes m angleLimitDeg passes pts).getLast? = pts.getLast? := by
  induction passes generalizing pts with
  | zero => rfl
  | succ n ih =>
    simp only [refine_passes]
    split
    · exact refine_pass_getLast m angleLimitDeg pts
    · rw [ih, refine_pass_getLast]

theorem refine_by_angle_head (m : CMath α) (inp : List (Pt α)) (angleLimitDeg : α) :
    (refine_by_angle m inp angleLimitDeg).head? = inp.head? := by
  unfold refine_by_angle
  split
  · rfl
  · exact refine_passes_head m angleLimitDeg maxPasses inp

theorem refine_by_angle_getLast (m : CMath α) (inp : List (Pt α)) (angleLimitDeg : α) :
    (refine_by_angle m inp angleLimitDeg).getLast? = inp.getLast? := by
  unfold refine_by_angle
  split
  · rfl
  · exact refine_passes_getLast m angleLimitDeg maxPasses inp

theorem pipeline_head (m : CMath α) (pts : List (Pt α)) (angleLimitDeg maxSegLen : α) :
    (pipeline m pts angleLimitDeg maxSegLen).head? = pts.head? := by
  simp only [pipeline, refine_by_angle_head, subdivide_long_segments_head]

theorem pipeline_getLast (m : CMath α) (pts : List (Pt α)) (angleLimitDeg maxSegLen : α) :
    (pipeline m pts angleLimitDeg maxSegLen).getLast? = pts.getLast? := by
  simp only [pipeline, refine_by_angle_getLast, subdivide_long_segments_getLast]

/-! ### The boundary: reading `xy`, writing the result -/

theorem load_points_length (xy : Nat → α) (nPts : Int) :
    (load_points xy nPts).length = nPts.toNat := by
  simp [load_points]

theorem load_points_head (xy : Nat → α) (nPts : Int) (h : 1 ≤ nPts) :
    (load_points xy nPts).head? = some { x := xy 0, y := xy 1 } := by
  obtain ⟨k, hk⟩ : ∃ k, nPts.toNat = k + 1 := ⟨nPts.toNat - 1, by omega⟩
  simp [load_points, hk, List.range_succ_eq_map]

theorem load_points_getLast (xy : Nat → α) (nPts : Int) (h : 1 ≤ nPts) :
    (load_points xy nPts).getLast? =
      some { x := xy ((nPts.toNat - 1) * 2), y := xy ((nPts.toNat - 1) * 2 + 1) } := by
  obtain ⟨k, hk⟩ : ∃ k, nPts.toNat = k + 1 := ⟨nPts.toNat - 1, by omega⟩
  simp [load_points, hk, List.range_succ]

theorem store_points_length (pts : List (Pt α)) : (store_points pts).length = 2 * pts.length := by
  induction pts with
  | nil => rfl
  | cons p l ih =>
    have : store_points (p :: l) = p.x :: p.y :: store_points l := by simp [store_points]
    rw [this]; simp [ih]; omega

theorem store_points_take (pts : List (Pt α)) (p : Pt α) (h : pts.head? = some p) :
    (store_points pts).take 2 = [p.x, p.y] := by
  cases pts with
  | nil => simp at h
  | cons q l =>
    simp at h
    subst h
    simp [store_points]

theorem store_points_drop (pts : List (Pt α)) (p : Pt α) (h : pts.getLast? = some p) :
    (store_points pts).drop (2 * pts.length - 2) = [p.x, p.y] := by
  obtain ⟨init, rfl⟩ : ∃ init, pts = init ++ [p] := by
    have hne : pts ≠ [] := by rintro rfl; simp at h
    refine ⟨pts.dropLast, ?_⟩
    have := List.dropLast_append_getLast hne
    rw [List.getLast?_eq_getLast _ hne] at h
    simp at h
    rw [h] at this
    exact this.symm
  have e : store_points (init ++ [p]) = store_points init ++ [p.x, p.y] := by
    simp [store_points]
  have hl : 2 * (init ++ [p]).length - 2 = (store_points init).length := by
    rw [store_points_length]; simp; omega
  rw [e, hl, List.drop_left]

theorem subdivide_path_valid (m : CMath α) (malloc : Nat → Bool) (xy : Nat → α) (nPts : Int)
    (angleLimitDeg maxSegLen : α) (h : 1 ≤ nPts) :
    subdivide_path m malloc (some xy) nPts angleLimitDeg maxSegLen IntPtr.valid =
      if malloc ((pipeline m (load_points xy nPts) angleLimitDeg maxSegLen).length * 2 * 8) = false
      then Outcome.ret none 0
      else Outcome.ret
        (some (store_points (pipeline m (load_points xy nPts) angleLimitDeg maxSegLen)))
        ((pipeline m (load_points xy nPts) angleLimitDeg maxSegLen).length : Int) := by
  have h0 : ¬ nPts ≤ 0 := by omega
  simp [subdivide_path, h0, pipeline, store_and_return]

/-! ### Stage 1: the points of one segment -/

theorem exactSqrt_scale (m : CMath α) (hs : ExactSqrt m) (c x : α) (hc : 0 ≤ c) (hx : 0 ≤ x) :
    m.sqrt (c * c * x) = c * m.sqrt x := by
  have hcx : 0 ≤ c * c * x := mul_nonneg (mul_nonneg hc hc) hx
  have h1 := hs (c * c * x) hcx
  have h2 := hs x hx
  refine (mul_self_inj_of_nonneg h1.1 (mul_nonneg hc h2.1)).mp ?_
  rw [h1.2]
  calc c * c * x = c * c * (m.sqrt x * m.sqrt x) := by rw [h2.2]
    _ = c * m.sqrt x * (c * m.sqrt x) := by ring

theorem lerp_zero (a b : Pt α) : lerp a b 0 = a := by
  simp [lerp]

theorem exactSqrt_real : ExactSqrt (CMath.mk Real.sqrt Real.arccos Real.pi) :=
  fun x hx => ⟨Real.sqrt_nonneg x, Real.mul_self_sqrt hx⟩

theorem angle_loop_pair (m : CMath α) (angleLimitDeg : α) (p q : Pt α) :
    angle_loop m angleLimitDeg [p, q] = ([], false) := by
  simp [angle_loop]

/-- The output of a pass on `p :: q :: rest` is `p` followed by a list that
starts with `q`. -/
theorem angle_out_head (m : CMath α) (angleLimitDeg : α) (p q : Pt α) (rest : List (Pt α)) :
    ∃ tl, (angle_loop m angleLimitDeg (p :: q :: rest)).1 ++ (q :: rest).getLast?.toList
      = q :: tl := by
  cases rest with
  | nil => exact ⟨[], by simp [angle_loop]⟩
  | cons r rest =>
    simp only [angle_loop]
    split
    · exact ⟨_, rfl⟩
    · exact ⟨_, rfl⟩

theorem angle_out_step (m : CMath α) (angleLimitDeg : α) (p q r : Pt α) (rest : List (Pt α)) :
    (angle_loop m angleLimitDeg (p :: q :: r :: rest)).1 ++ (q :: r :: rest).getLast?.toList =
      (if turn_angle_deg m p q r > angleLimitDeg then [q, mid q r] else [q]) ++
        ((angle_loop m angleLimitDeg (q :: r :: rest)).1 ++ (r :: rest).getLast?.toList) := by
  simp only [angle_loop]
  split <;> simp [List.getLast?_cons_cons]

theorem refine_pass_cons_cons (m : CMath α) (angleLimitDeg : α) (p q : Pt α)
    (rest : List (Pt α)) :
    (refine_pass m angleLimitDeg (p :: q :: rest)).1 =
      p :: ((angle_loop m angleLimitDeg (p :: q :: rest)).1 ++ (q :: rest).getLast?.toList) := by
  simp [refine_pass, List.getLast?_cons_cons]

theorem angle_out_length (m : CMath α) (angleLimitDeg : α) (q : Pt α) (rest : List (Pt α)) :
    ∀ p : Pt α, (q :: rest).length ≤
      ((angle_loop m angleLimitDeg (p :: q :: rest)).1 ++ (q :: rest).getLast?.toList).length := by
  induction rest generalizing q with
  | nil => intro p; simp [angle_loop]
  | cons r rest ih =>
    intro p
    have h2 := ih r q
    rw [angle_out_step, List.length_append]
    split
    · simp only [List.length_cons, List.length_nil] at h2 ⊢; omega
    · simp only [List.length_cons, List.length_nil] at h2 ⊢; omega

theorem refine_pass_length (m : CMath α) (angleLimitDeg : α) (pts : List (Pt α)) :
    pts.length ≤ (refine_pass m angleLimitDeg pts).1.length := by
  match pts with
  | [] => simp [refine_pass, angle_loop]
  | [p] => simp [refine_pass, angle_loop]
  | p :: q :: rest =>
    rw [refine_pass_cons_cons]
    have := angle_out_length m angleLimitDeg q rest p
    simp only [List.length_cons] at this ⊢
    omega

theorem refine_passes_length (m : CMath α) (angleLimitDeg : α) (passes : Nat)
    (pts : List (Pt α)) :
    pts.length ≤ (refine_passes m angleLimitDeg passes pts).length := by
  induction passes generalizing pts with
  | zero => exact le_refl _
  | succ n ih =>
    simp only [refine_passes]
    split
    · exact refine_pass_length m angleLimitDeg pts
    · exact le_trans (refine_pass_length m angleLimitDeg pts) (ih _)

theorem refine_by_angle_length (m : CMath α) (inp : List (Pt α)) (angleLimitDeg : α) :
    inp.length ≤ (refine_by_angle m inp angleLimitDeg).length := by
  unfold refine_by_angle
  split
  · exact le_refl _
  · exact refine_passes_length m angleLimitDeg maxPasses inp

theorem long_segments_length (m : CMath α) (maxSegLen : α) (l : List (Pt α)) (h : l ≠ []) :
    l.length ≤ (long_segments_loop m maxSegLen l ++ l.getLast?.toList).length := by
  induction l with
  | nil => exact absurd rfl h
  | cons a l ih =>
    cases l with
    | nil => simp [long_segments_loop]
    | cons b rest =>
      rw [long_segments_cons_cons]
      have := ih (by simp)
      simp only [List.length_cons, List.length_append] at this ⊢
      omega

theorem subdivide_long_segments_length (m : CMath α) (inp : List (Pt α)) (maxSegLen : α) :
    inp.length ≤ (subdivide_long_segments m inp maxSegLen).length := by
  unfold subdivide_long_segments
  split
  · exact le_refl _
  · next hg =>
    apply long_segments_length
    rintro rfl
    simp at hg

theorem pipeline_length (m : CMath α) (pts : List (Pt α)) (angleLimitDeg maxSegLen : α) :
    pts.length ≤ (pipeline m pts angleLimitDeg maxSegLen).length :=
  le_trans (subdivide_long_segments_length m pts maxSegLen) (refine_by_angle_length m _ _)

/-! ### Points on the input segments -/

theorem long_segments_fixed (m : CMath α) (maxSegLen : α) (l : List (Pt α)) (hne : l ≠ [])
    (h : List.Chain' (fun p q => distance m p q ≤ maxSegLen) l) :
    long_segments_loop m maxSegLen l ++ l.getLast?.toList = l := by
  induction l with
  | nil => exact absurd rfl hne
  | cons a l ih =>
    cases l with
    | nil => simp [long_segments_loop]
    | cons b rest =>
      have hab : distance m a b ≤ maxSegLen :=
        List.Chain'.rel_head (R := fun p q => distance m p q ≤ maxSegLen) h
      rw [long_segments_cons_cons, ih (by simp) (List.Chain'.tail h)]
      simp [inserted_points, not_lt.mpr hab]

theorem subdivide_long_segments_fixed (m : CMath α) (maxSegLen : α) (l : List (Pt α))
    (h : List.Chain' (fun p q => distance m p q ≤ maxSegLen) l) :
    subdivide_long_segments m l maxSegLen = l := by
  unfold subdivide_long_segments
  split
  · rfl
  · next hg =>
    apply long_segments_fixed m maxSegLen l _ h
    rintro rfl
    simp at hg

theorem subdivide_long_segments_disabled (m : CMath α) (inp : List (Pt α)) (maxSegLen : α)
    (h : maxSegLen ≤ 0) : subdivide_long_segments m inp maxSegLen = inp := by
  simp [subdivide_long_segments, h]

theorem refine_by_angle_disabled (m : CMath α) (inp : List (Pt α)) (angleLimitDeg : α)
    (h : angleLimitDeg ≤ 0) : refine_by_angle m inp angleLimitDeg = inp := by
  simp [refine_by_angle, h]

theorem store_load_points (xy : Nat → α) (n : Nat) :
    store_points ((List.range n).map fun i => ({ x := xy (i * 2 + 0), y := xy (i * 2 + 1) } : Pt α))
      = (List.range (2 * n)).map xy := by
  induction n with
  | zero => simp [store_points]
  | succ k ih =>
    have e : 2 * (k + 1) = (2 * k + 1) + 1 := by ring
    rw [List.range_succ, e, List.range_succ, List.range_succ]
    simp only [store_points, List.map_append, List.flatMap_append] at ih ⊢
    rw [ih]
    simp [Nat.mul_comm]

theorem subdivide_path_null (m : CMath α) (malloc : Nat → Bool) (xy : Option (Nat → α))
    (nPts : Int) (angleLimitDeg maxSegLen : α) :
    subdivide_path m malloc xy nPts angleLimitDeg maxSegLen IntPtr.null = Outcome.null_store := by
  cases xy with
  | none => rfl
  | some mem => simp [subdivide_path, store_and_return]

theorem subdivide_path_invalid (m : CMath α) (malloc : Nat → Bool) (xy : Option (Nat → α))
    (nPts : Int) (angleLimitDeg maxSegLen : α) (h : xy = none ∨ nPts ≤ 0) :
    subdivide_path m malloc xy nPts angleLimitDeg maxSegLen IntPtr.valid = Outcome.ret none 0 := by
  cases xy with
  | none => rfl
  | some mem =>
    have h0 : nPts ≤ 0 := by simpa using h
    simp [subdivide_path, store_and_return, h0]

/-! ### Turn angles through stage 2 -/

/-- The turn angle at `c` depends only on the directions of the two segments
that meet there. -/
theorem turn_angle_deg_scale (m : CMath α) (hs : ExactSqrt m) (p c n x n' : Pt α) (s t : α)
    (hs0 : 0 < s) (ht0 : 0 < t)
    (hx1 : c.x - x.x = s * (c.x - p.x)) (hy1 : c.y - x.y = s * (c.y - p.y))
    (hx2 : n'.x - c.x = t * (n.x - c.x)) (hy2 : n'.y - c.y = t * (n.y - c.y)) :
    turn_angle_deg m x c n' = turn_angle_deg m p c n := by
  have hA : 0 ≤ (c.x - p.x) * (c.x - p.x) + (c.y - p.y) * (c.y - p.y) :=
    add_nonneg (mul_self_nonneg _) (mul_self_nonneg _)
  have hB : 0 ≤ (n.x - c.x) * (n.x - c.x) + (n.y - c.y) * (n.y - c.y) :=
    add_nonneg (mul_self_nonneg _) (mul_self_nonneg _)
  have e1 : s * (c.x - p.x) * (s * (c.x - p.x)) + s * (c.y - p.y) * (s * (c.y - p.y)) =
      s * s * ((c.x - p.x) * (c.x - p.x) + (c.y - p.y) * (c.y - p.y)) := by ring
  have e2 : t * (n.x - c.x) * (t * (n.x - c.x)) + t * (n.y - c.y) * (t * (n.y - c.y)) =
      t * t * ((n.x - c.x) * (n.x - c.x) + (n.y - c.y) * (n.y - c.y)) := by ring
  simp only [turn_angle_deg, hx1, hy1, hx2, hy2, e1, e2,
    exactSqrt_scale m hs s _ hs0.le hA, exactSqrt_scale m hs t _ ht0.le hB]
  by_cases h0 : m.sqrt ((c.x - p.x) * (c.x - p.x) + (c.y - p.y) * (c.y - p.y)) = 0 ∨
      m.sqrt ((n.x - c.x) * (n.x - c.x) + (n.y - c.y) * (n.y - c.y)) = 0
  · have h0' : s * m.sqrt ((c.x - p.x) * (c.x - p.x) + (c.y - p.y) * (c.y - p.y)) = 0 ∨
        t * m.sqrt ((n.x - c.x) * (n.x - c.x) + (n.y - c.y) * (n.y - c.y)) = 0 := by
      rcases h0 with h | h
      · left; rw [h, mul_zero]
      · right; rw [h, mul_zero]
    rw [if_pos h0, if_pos h0']
  · have h0' : ¬ (s * m.sqrt ((c.x - p.x) * (c.x - p.x) + (c.y - p.y) * (c.y - p.y)) = 0 ∨
        t * m.sqrt ((n.x - c.x) * (n.x - c.x) + (n.y - c.y) * (n.y - c.y)) = 0) := by
      simpa [mul_eq_zero, hs0.ne', ht0.ne'] using h0
    rw [if_neg h0, if_neg h0']
    have hn := not_or.mp h0
    have ec : (s * (c.x - p.x) * (t * (n.x - c.x)) + s * (c.y - p.y) * (t * (n.y - c.y))) /
        (s * m.sqrt ((c.x - p.x) * (c.x - p.x) + (c.y - p.y) * (c.y - p.y)) *
          (t * m.sqrt ((n.x - c.x) * (n.x - c.x) + (n.y - c.y) * (n.y - c.y)))) =
        ((c.x - p.x) * (n.x - c.x) + (c.y - p.y) * (n.y - c.y)) /
        (m.sqrt ((c.x - p.x) * (c.x - p.x) + (c.y - p.y) * (c.y - p.y)) *
          m.sqrt ((n.x - c.x) * (n.x - c.x) + (n.y - c.y) * (n.y - c.y))) := by
      have := hn.1
      have := hn.2
      have := hs0.ne'
      have := ht0.ne'
      field_simp
      ring
    rw [ec]

theorem behind_self (q r : Pt α) : Behind q r q :=
  ⟨1, zero_lt_one, by ring, by ring⟩

theorem behind_mid (q r : Pt α) : Behind q r (mid q r) :=
  ⟨0.5, by norm_num, by simp only [mid]; ring, by simp only [mid]; ring⟩

/-- The turn angle at a vertex that keeps its place is the same after midpoints
have been inserted before and after it. -/
theorem turn_angle_deg_kept (m : CMath α) (hs : ExactSqrt m) (q r n x : Pt α)
    (hx : Behind q r x) : turn_angle_deg m x r (mid r n) = turn_angle_deg m q r n := by
  obtain ⟨s, hs0, hsx, hsy⟩ := hx
  exact turn_angle_deg_scale m hs q r n x (mid r n) s 0.5 hs0 (by norm_num) hsx hsy
    (by simp only [mid]; ring) (by simp only [mid]; ring)

theorem hasViolation_of_suffix (m : CMath α) (angleLimitDeg : α) (l₁ l₂ : List (Pt α))
    (hsuf : l₁ <:+ l₂) (h : HasViolation m angleLimitDeg l₁) : HasViolation m angleLimitDeg l₂ := by
  obtain ⟨p, c, n, hin, hv⟩ := h
  exact ⟨p, c, n, List.IsInfix.trans hin hsuf.isInfix, hv⟩

theorem angle_out_violation (m : CMath α) (hs : ExactSqrt m) (angleLimitDeg : α)
    (rest : List (Pt α)) :
    ∀ q r x : Pt α, Behind q r x → HasViolation m angleLimitDeg (q :: r :: rest) →
      HasViolation m angleLimitDeg
        (x :: ((angle_loop m angleLimitDeg (q :: r :: rest)).1 ++ (r :: rest).getLast?.toList)) := by
  induction rest with
  | nil =>
    rintro q r x _ ⟨p, c, n, hin, _⟩
    have := List.IsInfix.length_le hin
    simp at this
  | cons n0 rest ih =>
    rintro q r x hx ⟨p, c, n, hin, hv⟩
    rw [angle_out_step]
    rcases List.infix_cons_iff.mp hin with hpre | htail
    · have hpre' : [p, c, n] <+: [q, r, n0] ++ rest := by simpa using hpre
      have heq : [p, c, n] = [q, r, n0] :=
        List.prefix_of_prefix_length_le hpre' (List.prefix_append _ _) (by simp)
          |>.eq_of_length (by simp)
      simp only [List.cons.injEq, and_true] at heq
      obtain ⟨rfl, rfl, rfl⟩ := heq
      rw [if_pos hv]
      refine ⟨x, c, mid c n, ?_, ?_⟩
      · exact (List.prefix_append [x, c, mid c n] _).isInfix
      · rw [turn_angle_deg_kept m hs p c n x hx]
        exact hv
    · split
      · have := ih r n0 (mid r n0) (behind_mid r n0) ⟨p, c, n, htail, hv⟩
        refine hasViolation_of_suffix m angleLimitDeg _ _ ?_ this
        exact List.suffix_append [x, r] _
      · have := ih r n0 r (behind_self r n0) ⟨p, c, n, htail, hv⟩
        refine hasViolation_of_suffix m angleLimitDeg _ _ ?_ this
        exact List.suffix_append [x] _

theorem refine_pass_violation (m : CMath α) (hs : ExactSqrt m) (angleLimitDeg : α)
    (pts : List (Pt α)) (h : HasViolation m angleLimitDeg pts) :
    HasViolation m angleLimitDeg (refine_pass m angleLimitDeg pts).1 := by
  match pts, h with
  | [], ⟨p, c, n, hin, _⟩ => simpa using List.IsInfix.length_le hin
  | [a], ⟨p, c, n, hin, _⟩ => simpa using List.IsInfix.length_le hin
  | q :: r :: rest, h =>
    rw [refine_pass_cons_cons]
    exact angle_out_violation m hs angleLimitDeg rest q r q (behind_self q r) h

theorem refine_passes_violation (m : CMath α) (hs : ExactSqrt m) (angleLimitDeg : α)
    (passes : Nat) (pts : List (Pt α)) (h : HasViolation m angleLimitDeg pts) :
    HasViolation m angleLimitDeg (refine_passes m angleLimitDeg passes pts) := by
  induction passes generalizing pts with
  | zero => exact h
  | succ k ih =>
    simp only [refine_passes]
    have hp := refine_pass_violation m hs angleLimitDeg pts h
    split
    · exact hp
    · exact ih _ hp

theorem refine_by_angle_violation (m : CMath α) (hs : ExactSqrt m) (inp : List (Pt α))
    (angleLimitDeg : α) (h : HasViolation m angleLimitDeg inp) :
    HasViolation m angleLimitDeg (refine_by_angle m inp angleLimitDeg) := by
  unfold refine_by_angle
  split
  · exact h
  · exact refine_passes_violation m hs angleLimitDeg maxPasses inp h

/-- A pass over a polyline without a violation pushes the points it read and
leaves `inserted` false. -/
theorem angle_out_compliant (m : CMath α) (angleLimitDeg : α) (rest : List (Pt α)) :
    ∀ q r : Pt α, ¬ HasViolation m angleLimitDeg (q :: r :: rest) →
      (angle_loop m angleLimitDeg (q :: r :: rest)).1 ++ (r :: rest).getLast?.toList = r :: rest ∧
      (angle_loop m angleLimitDeg (q :: r :: rest)).2 = false := by
  induction rest with
  | nil => intro q r _; simp [angle_loop]
  | cons n0 rest ih =>
    intro q r h
    have h1 : ¬ turn_angle_deg m q r n0 > angleLimitDeg := fun hv =>
      h ⟨q, r, n0, (List.prefix_append [q, r, n0] rest).isInfix, hv⟩
    have h2 : ¬ HasViolation m angleLimitDeg (r :: n0 :: rest) := fun hv =>
      h (hasViolation_of_suffix m angleLimitDeg _ _ (List.suffix_cons q _) hv)
    obtain ⟨ih1, ih2⟩ := ih r n0 h2
    refine ⟨?_, ?_⟩
    · rw [angle_out_step, if_neg h1, ih1]; rfl
    · simp only [angle_loop, if_neg h1, ih2]

theorem refine_by_angle_compliant (m : CMath α) (inp : List (Pt α)) (angleLimitDeg : α)
    (h : ¬ HasViolation m angleLimitDeg inp) : refine_by_angle m inp angleLimitDeg = inp := by
  unfold refine_by_angle
  split
  · rfl
  · next hg =>
    match inp, h, hg with
    | [], _, hg => simp at hg
    | [a], _, hg => simp at hg
    | q :: r :: rest, h, _ =>
      obtain ⟨h1, h2⟩ := angle_out_compliant m angleLimitDeg rest q r h
      have hp : refine_pass m angleLimitDeg (q :: r :: rest) = (q :: r :: rest, false) := by
        apply Prod.ext
        · rw [refine_pass_cons_cons, h1]
        · exact h2
      simp [maxPasses, refine_passes, hp]

/-! ### Evaluating turn angles -/

theorem exactSqrt_mul_self (m : CMath α) (hs : ExactSqrt m) (c : α) (hc : 0 ≤ c) :
    m.sqrt (c * c) = c := by
  have h := hs (c * c) (mul_self_nonneg c)
  exact (mul_self_inj_of_nonneg h.1 hc).mp h.2

/-- The value of `turn_angle_deg` at a vertex whose two segments have the
lengths `n1 > 0` and `n2 > 0` and whose cosine `cc` needs no clamping. -/
theorem turn_angle_deg_eval (m : CMath α) (hs : ExactSqrt m) (p c n : Pt α) (n1 n2 cc : α)
    (h1 : 0 < n1) (h2 : 0 < n2)
    (e1 : (c.x - p.x) * (c.x - p.x) + (c.y - p.y) * (c.y - p.y) = n1 * n1)
    (e2 : (n.x - c.x) * (n.x - c.x) + (n.y - c.y) * (n.y - c.y) = n2 * n2)
    (ec : ((c.x - p.x) * (n.x - c.x) + (c.y - p.y) * (n.y - c.y)) / (n1 * n2) = cc)
    (hc1 : -1 ≤ cc) (hc2 : cc ≤ 1) :
    turn_angle_deg m p c n = m.acos cc * 180 / m.M_PI := by
  simp only [turn_angle_deg, e1, e2, exactSqrt_mul_self m hs n1 h1.le,
    exactSqrt_mul_self m hs n2 h2.le, ec]
  rw [if_neg (by simp [h1.ne', h2.ne']), if_neg (not_lt.mpr hc2), if_neg (not_lt.mpr hc1)]

/-- Over `ℝ`, a right angle measures more than 45 degrees. -/
theorem right_angle_gt (p c n : Pt ℝ) (n1 n2 : ℝ) (h1 : 0 < n1) (h2 : 0 < n2)
    (e1 : (c.x - p.x) * (c.x - p.x) + (c.y - p.y) * (c.y - p.y) = n1 * n1)
    (e2 : (n.x - c.x) * (n.x - c.x) + (n.y - c.y) * (n.y - c.y) = n2 * n2)
    (ed : (c.x - p.x) * (n.x - c.x) + (c.y - p.y) * (n.y - c.y) = 0) :
    turn_angle_deg (CMath.mk Real.sqrt Real.arccos Real.pi) p c n > 45 := by
  rw [turn_angle_deg_eval (CMath.mk Real.sqrt Real.arccos Real.pi) exactSqrt_real p c n n1 n2 0 h1 h2 e1 e2
    (by rw [ed, zero_div]) (by norm_num) (by norm_num)]
  show (45 : ℝ) < Real.arccos 0 * 180 / Real.pi
  rw [Real.arccos_zero, lt_div_iff₀ Real.pi_pos]
  have := Real.pi_pos
  linarith

/-- Over `ℝ`, the turn angle at a point between two segments of the same
direction is 0. -/
theorem straight_angle_zero (p c n : Pt ℝ) (n1 n2 : ℝ) (h1 : 0 < n1) (h2 : 0 < n2)
    (e1 : (c.x - p.x) * (c.x - p.x) + (c.y - p.y) * (c.y - p.y) = n1 * n1)
    (e2 : (n.x - c.x) * (n.x - c.x) + (n.y - c.y) * (n.y - c.y) = n2 * n2)
    (ed : (c.x - p.x) * (n.x - c.x) + (c.y - p.y) * (n.y - c.y) = n1 * n2) :
    turn_angle_deg (CMath.mk Real.sqrt Real.arccos Real.pi) p c n = 0 := by
  rw [turn_angle_deg_eval (CMath.mk Real.sqrt Real.arccos Real.pi) exactSqrt_real p c n n1 n2 1 h1 h2 e1 e2
    (by rw [ed]; exact div_self (mul_pos h1 h2).ne') (by norm_num) (by norm_num)]
  show Real.arccos 1 * 180 / Real.pi = 0
  rw [Real.arccos_one]
  simp

/-! ### The turn angle and its intermediate values -/

theorem turn_angle_deg_trace (m : CMath α) (prev curr next : Pt α) :
    turn_angle_deg m prev curr next =
      match turn_angle_trace m prev curr next with
      | none => 0
      | some dc => m.acos dc.2 * 180 / m.M_PI := by
  unfold turn_angle_deg turn_angle_trace
  simp only
  split <;> rfl

theorem turn_angle_degenerate (m : CMath α) (h0 : m.sqrt 0 = 0) (prev curr next : Pt α)
    (hdeg : prev = curr ∨ curr = next) :
    turn_angle_trace m prev curr next = none := by
  unfold turn_angle_trace
  rcases hdeg with rfl | rfl <;> simp [h0]

theorem distance_eval (m : CMath α) (hs : ExactSqrt m) (a b : Pt α) (d : α) (hd : 0 ≤ d)
    (e : (b.x - a.x) * (b.x - a.x) + (b.y - a.y) * (b.y - a.y) = d * d) :
    distance m a b = d := by
  simp only [distance, e, exactSqrt_mul_self m hs d hd]

/-- With an exact square root and `acos 1 = 0`, the turn angle between two
segments of the same direction is 0. -/
theorem turn_angle_deg_straight (m : CMath α) (hs : ExactSqrt m) (ha : m.acos 1 = 0)
    (p c n : Pt α) (t : α) (ht : 0 < t) (hx : n.x - c.x = t * (c.x - p.x))
    (hy : n.y - c.y = t * (c.y - p.y)) : turn_angle_deg m p c n = 0 := by
  have hD : 0 ≤ (c.x - p.x) * (c.x - p.x) + (c.y - p.y) * (c.y - p.y) :=
    add_nonneg (mul_self_nonneg _) (mul_self_nonneg _)
  have e2 : t * (c.x - p.x) * (t * (c.x - p.x)) + t * (c.y - p.y) * (t * (c.y - p.y)) =
      t * t * ((c.x - p.x) * (c.x - p.x) + (c.y - p.y) * (c.y - p.y)) := by ring
  have hsq := (hs _ hD).2
  simp only [turn_angle_deg, hx, hy, e2, exactSqrt_scale m hs t _ ht.le hD]
  split
  · rfl
  · next hg =>
    have hn := (not_or.mp hg).1
    have ec : ((c.x - p.x) * (t * (c.x - p.x)) + (c.y - p.y) * (t * (c.y - p.y))) /
        (m.sqrt ((c.x - p.x) * (c.x - p.x) + (c.y - p.y) * (c.y - p.y)) *
          (t * m.sqrt ((c.x - p.x) * (c.x - p.x) + (c.y - p.y) * (c.y - p.y)))) = 1 := by
      rw [div_eq_one_iff_eq (mul_ne_zero hn (mul_ne_zero ht.ne' hn))]
      calc (c.x - p.x) * (t * (c.x - p.x)) + (c.y - p.y) * (t * (c.y - p.y))
          = t * ((c.x - p.x) * (c.x - p.x) + (c.y - p.y) * (c.y - p.y)) := by ring
        _ = t * (m.sqrt ((c.x - p.x) * (c.x - p.x) + (c.y - p.y) * (c.y - p.y)) *
              m.sqrt ((c.x - p.x) * (c.x - p.x) + (c.y - p.y) * (c.y - p.y))) := by rw [hsq]
        _ = _ := by ring
    have h1 : ¬ ((1 : α) > 1) := lt_irrefl 1
    have h2 : ¬ ((1 : α) < -1) := by norm_num
    rw [ec, if_neg h1, if_neg h2, ha, zero_mul, zero_div]

/-- The turn angle at a midpoint the previous pass inserted is 0. -/
theorem turn_angle_deg_mid (m : CMath α) (hs : ExactSqrt m) (ha : m.acos 1 = 0) (r n : Pt α) :
    turn_angle_deg m r (mid r n) n = 0 :=
  turn_angle_deg_straight m hs ha r (mid r n) n 1 zero_lt_one
    (by simp only [mid]; norm_num; ring) (by simp only [mid]; norm_num; ring)

/-- Over `ℝ`, a vertex whose two segments are non-degenerate and have a
non-positive scalar product turns by at least 90 degrees. -/
theorem turn_angle_deg_obtuse (p c n : Pt ℝ)
    (h1 : 0 < (c.x - p.x) * (c.x - p.x) + (c.y - p.y) * (c.y - p.y))
    (h2 : 0 < (n.x - c.x) * (n.x - c.x) + (n.y - c.y) * (n.y - c.y))
    (hd : (c.x - p.x) * (n.x - c.x) + (c.y - p.y) * (n.y - c.y) ≤ 0) :
    90 ≤ turn_angle_deg (CMath.mk Real.sqrt Real.arccos Real.pi) p c n := by
  have hn1 := Real.sqrt_pos.mpr h1
  have hn2 := Real.sqrt_pos.mpr h2
  have hc : ((c.x - p.x) * (n.x - c.x) + (c.y - p.y) * (n.y - c.y)) /
      (Real.sqrt ((c.x - p.x) * (c.x - p.x) + (c.y - p.y) * (c.y - p.y)) *
        Real.sqrt ((n.x - c.x) * (n.x - c.x) + (n.y - c.y) * (n.y - c.y))) ≤ 0 :=
    div_nonpos_of_nonpos_of_nonneg hd (mul_pos hn1 hn2).le
  simp only [turn_angle_deg]
  rw [if_neg (by simp [hn1.ne', hn2.ne']), if_neg (by linarith)]
  rw [le_div_iff₀ Real.pi_pos]
  have key : ∀ x : ℝ, x ≤ 0 → Real.pi / 2 ≤ Real.arccos x := fun x hx =>
    not_lt.mp (fun h => absurd (Real.arccos_lt_pi_div_two.mp h) (not_lt.mpr hx))
  have hpi := Real.pi_pos
  split
  · have := key (-1) (by norm_num)
    linarith
  · have := key _ hc
    linarith

/-! ### The input as a subsequence of the output -/

theorem long_segments_sublist (m : CMath α) (maxSegLen : α) (l : List (Pt α)) (h : l ≠ []) :
    List.Sublist l (long_segments_loop m maxSegLen l ++ l.getLast?.toList) := by
  induction l with
  | nil => exact absurd rfl h
  | cons a l ih =>
    cases l with
    | nil => simp [long_segments_loop]
    | cons b rest =>
      rw [long_segments_cons_cons]
      exact List.Sublist.cons₂ a
        (List.Sublist.trans (ih (by simp)) (List.sublist_append_right _ _))

theorem subdivide_long_segments_sublist (m : CMath α) (inp : List (Pt α)) (maxSegLen : α) :
    List.Sublist inp (subdivide_long_segments m inp maxSegLen) := by
  unfold subdivide_long_segments
  split
  · exact List.Sublist.refl inp
  · next hg =>
    apply long_segments_sublist
    rintro rfl
    simp at hg

theorem angle_out_sublist (m : CMath α) (angleLimitDeg : α) (rest : List (Pt α)) :
    ∀ p q : Pt α, List.Sublist (q :: rest)
      ((angle_loop m angleLimitDeg (p :: q :: rest)).1 ++ (q :: rest).getLast?.toList) := by
  induction rest with
  | nil => intro p q; simp [angle_loop]
  | cons r rest ih =>
    intro p q
    rw [angle_out_step]
    split
    · exact List.Sublist.cons₂ q (List.Sublist.cons _ (ih q r))
    · exact List.Sublist.cons₂ q (ih q r)

theorem refine_pass_sublist (m : CMath α) (angleLimitDeg : α) (pts : List (Pt α)) :
    List.Sublist pts (refine_pass m angleLimitDeg pts).1 := by
  match pts with
  | [] => simp [refine_pass, angle_loop]
  | [p] => simp [refine_pass, angle_loop]
  | p :: q :: rest =>
    rw [refine_pass_cons_cons]
    exact List.Sublist.cons₂ p (angle_out_sublist m angleLimitDeg rest p q)

theorem refine_passes_sublist (m : CMath α) (angleLimitDeg : α) (passes : Nat)
    (pts : List (Pt α)) : List.Sublist pts (refine_passes m angleLimitDeg passes pts) := by
  induction passes generalizing pts with
  | zero => exact List.Sublist.refl pts
  | succ k ih =>
    simp only [refine_passes]
    split
    · exact refine_pass_sublist m angleLimitDeg pts
    · exact List.Sublist.trans (refine_pass_sublist m angleLimitDeg pts) (ih _)

theorem refine_by_angle_sublist (m : CMath α) (inp : List (Pt α)) (angleLimitDeg : α) :
    List.Sublist inp (refine_by_angle m inp angleLimitDeg) := by
  unfold refine_by_angle
  split
  · exact List.Sublist.refl inp
  · exact refine_passes_sublist m angleLimitDeg maxPasses inp

/-! ### Stage 1 against the reference definition -/

theorem passes_run_le (m : CMath α) (angleLimitDeg : α) (passes : Nat) (pts : List (Pt α)) :
    passes_run m angleLimitDeg passes pts ≤ passes := by
  induction passes generalizing pts with
  | zero => simp [passes_run]
  | succ k ih =>
    simp only [passes_run]
    split
    · omega
    · have := ih (refine_pass m angleLimitDeg pts).1
      omega

theorem refine_by_angle_passes_le (m : CMath α) (inp : List (Pt α)) (angleLimitDeg : α) :
    refine_by_angle_passes m inp angleLimitDeg ≤ 2 := by
  unfold refine_by_angle_passes
  split
  · omega
  · exact passes_run_le m angleLimitDeg maxPasses inp

theorem refine_pass_compliant (m : CMath α) (angleLimitDeg : α) (pts : List (Pt α))
    (h2 : 2 ≤ pts.length) (h : ¬ HasViolation m angleLimitDeg pts) :
    refine_pass m angleLimitDeg pts = (pts, false) := by
  match pts, h2, h with
  | q :: r :: rest, _, h =>
    obtain ⟨h1, h2⟩ := angle_out_compliant m angleLimitDeg rest q r h
    apply Prod.ext
    · rw [refine_pass_cons_cons, h1]
    · exact h2

theorem no_triple_of_short (l : List (Pt α)) (h : l.length ≤ 2) (p c n : Pt α) :
    ¬ [p, c, n] <:+: l := fun hin => by
  have := List.IsInfix.length_le hin
  simp at this
  omega

/-! ### The size of the output of stage 2 -/

theorem count_violations_le (m : CMath α) (angleLimitDeg : α) (l : List (Pt α)) :
    count_violations m angleLimitDeg l + 2 ≤ max l.length 2 := by
  induction l with
  | nil => simp [count_violations]
  | cons p l ih =>
    match l, ih with
    | [], _ => simp [count_violations]
    | [c], _ => simp [count_violations]
    | c :: n :: rest, ih =>
      simp only [count_violations, List.length_cons] at ih ⊢
      split <;> omega

theorem angle_loop_flag_false (m : CMath α) (angleLimitDeg : α) (l : List (Pt α)) :
    (angle_loop m angleLimitDeg l).2 = false → count_violations m angleLimitDeg l = 0 := by
  induction l with
  | nil => intro _; simp [count_violations]
  | cons p l ih =>
    match l, ih with
    | [], _ => intro _; simp [count_violations]
    | [c], _ => intro _; simp [count_violations]
    | c :: n :: rest, ih =>
      simp only [angle_loop, count_violations]
      split
      · intro h; simp at h
      · intro h; simpa using ih h

theorem angle_out_length_count (m : CMath α) (angleLimitDeg : α) (rest : List (Pt α)) :
    ∀ p q : Pt α,
      ((angle_loop m angleLimitDeg (p :: q :: rest)).1 ++ (q :: rest).getLast?.toList).length =
        (q :: rest).length + count_violations m angleLimitDeg (p :: q :: rest) := by
  induction rest with
  | nil => intro p q; simp [angle_loop, count_violations]
  | cons r rest ih =>
    intro p q
    have h2 := ih q r
    rw [angle_out_step, List.length_append, h2]
    simp only [count_violations, List.length_cons]
    split <;> simp <;> omega

theorem refine_pass_length_count (m : CMath α) (angleLimitDeg : α) (pts : List (Pt α))
    (h2 : 2 ≤ pts.length) :
    (refine_pass m angleLimitDeg pts).1.length =
      pts.length + count_violations m angleLimitDeg pts := by
  match pts, h2 with
  | p :: q :: rest, _ =>
    rw [refine_pass_cons_cons, List.length_cons, angle_out_length_count]
    simp only [List.length_cons]
    omega

/-- A pass keeps the number of violating vertices: each vertex it read keeps its
turn angle, and each midpoint it inserted has turn angle 0. -/
theorem angle_out_count (m : CMath α) (hs : ExactSqrt m) (ha : m.acos 1 = 0)
    (angleLimitDeg : α) (hA : 0 ≤ angleLimitDeg) (rest : List (Pt α)) :
    ∀ q r x : Pt α, Behind q r x →
      count_violations m angleLimitDeg
        (x :: ((angle_loop m angleLimitDeg (q :: r :: rest)).1 ++ (r :: rest).getLast?.toList)) =
      count_violations m angleLimitDeg (q :: r :: rest) := by
  induction rest with
  | nil => intro q r x _; simp [angle_loop, count_violations]
  | cons n0 rest ih =>
    intro q r x hx
    obtain ⟨tl, htl⟩ := angle_out_head m angleLimitDeg r n0 rest
    rw [angle_out_step]
    by_cases hv : turn_angle_deg m q r n0 > angleLimitDeg
    · have ih' := ih r n0 (mid r n0) (behind_mid r n0)
      rw [htl] at ih' ⊢
      have hmid : ¬ turn_angle_deg m r (mid r n0) n0 > angleLimitDeg := by
        rw [turn_angle_deg_mid m hs ha]
        exact not_lt.mpr hA
      have hkept : turn_angle_deg m x r (mid r n0) > angleLimitDeg := by
        rw [turn_angle_deg_kept m hs q r n0 x hx]
        exact hv
      rw [if_pos hv]
      simp only [List.cons_append, List.nil_append, count_violations, if_pos hkept, if_neg hmid,
        if_pos hv] at ih' ⊢
      omega
    · have ih' := ih r n0 r (behind_self r n0)
      rw [htl] at ih' ⊢
      obtain ⟨s, hs0, hsx, hsy⟩ := hx
      have hsame : turn_angle_deg m x r n0 = turn_angle_deg m q r n0 :=
        turn_angle_deg_scale m hs q r n0 x n0 s 1 hs0 zero_lt_one hsx hsy
          (by ring) (by ring)
      have hkept : ¬ turn_angle_deg m x r n0 > angleLimitDeg := by
        rw [hsame]
        exact hv
      rw [if_neg hv]
      simp only [List.cons_append, List.nil_append, count_violations, if_neg hkept,
        if_neg hv] at ih' ⊢
      omega

theorem refine_pass_count (m : CMath α) (hs : ExactSqrt m) (ha : m.acos 1 = 0)
    (angleLimitDeg : α) (hA : 0 ≤ angleLimitDeg) (pts : List (Pt α)) (h2 : 2 ≤ pts.length) :
    count_violations m angleLimitDeg (refine_pass m angleLimitDeg pts).1 =
      count_violations m angleLimitDeg pts := by
  match pts, h2 with
  | p :: q :: rest, _ =>
    rw [refine_pass_cons_cons]
    exact angle_out_count m hs ha angleLimitDeg hA rest p q p (behind_self p q)

end Lemmas

section Claims

variable {α : Type} [LinearOrderedField α] [FloorRing α]

/-- C1 (endpoint preservation).  For a call with `nPts ≥ 1` points, a non-null
`outLenPts` and a successful allocation, for all thresholds, `subdivide_path`
returns the flattened pipeline output, whose first two doubles are `xy[0]`,
`xy[1]` and whose last two doubles are `xy[2(nPts-1)]`, `xy[2(nPts-1)+1]`; and
each of `subdivide_long_segments`, `refine_by_angle` and their composition
returns a sequence with the same first point and the same last point as its
input `inp`, exactly. -/
theorem endpoint_preservation (m : CMath α) (malloc : Nat → Bool) (xy : Nat → α) (nPts : Int)
    (angleLimitDeg maxSegLen : α) (inp : List (Pt α)) (hn : 1 ≤ nPts)
    (hm : malloc ((pipeline m (load_points xy nPts) angleLimitDeg maxSegLen).length * 2 * 8)
      = true) :
    (subdivide_path m malloc (some xy) nPts angleLimitDeg maxSegLen IntPtr.valid =
        Outcome.ret
          (some (store_points (pipeline m (load_points xy nPts) angleLimitDeg maxSegLen)))
          ((pipeline m (load_points xy nPts) angleLimitDeg maxSegLen).length : Int) ∧
      (store_points (pipeline m (load_points xy nPts) angleLimitDeg maxSegLen)).take 2 =
        [xy 0, xy 1] ∧
      (store_points (pipeline m (load_points xy nPts) angleLimitDeg maxSegLen)).drop
          (2 * (pipeline m (load_points xy nPts) angleLimitDeg maxSegLen).length - 2) =
        [xy ((nPts.toNat - 1) * 2), xy ((nPts.toNat - 1) * 2 + 1)]) ∧
    ((subdivide_long_segments m inp maxSegLen).head? = inp.head? ∧
      (subdivide_long_segments m inp maxSegLen).getLast? = inp.getLast?) ∧
    ((refine_by_angle m inp angleLimitDeg).head? = inp.head? ∧
      (refine_by_angle m inp angleLimitDeg).getLast? = inp.getLast?) ∧
    ((pipeline m inp angleLimitDeg maxSegLen).head? = inp.head? ∧
      (pipeline m inp angleLimitDeg maxSegLen).getLast? = inp.getLast?) := by
  refine ⟨⟨?_, ?_, ?_⟩, ⟨?_, ?_⟩, ⟨?_, ?_⟩, ⟨?_, ?_⟩⟩
  · rw [subdivide_path_valid m malloc xy nPts angleLimitDeg maxSegLen hn, hm]
    simp
  · exact store_points_take _ _
      ((pipeline_head m _ angleLimitDeg maxSegLen).trans (load_points_head xy nPts hn))
  · exact store_points_drop _ _
      ((pipeline_getLast m _ angleLimitDeg maxSegLen).trans (load_points_getLast xy nPts hn))
  · exact subdivide_long_segments_head m inp maxSegLen
  · exact subdivide_long_segments_getLast m inp maxSegLen
  · exact refine_by_angle_head m inp angleLimitDeg
  · exact refine_by_angle_getLast m inp angleLimitDeg
  · exact pipeline_head m inp angleLimitDeg maxSegLen
  · exact pipeline_getLast m inp angleLimitDeg maxSegLen

/-- Witness for C1: the call on the three points `(0,0), (4,0), (4,3)` over `ℝ`
with `angleLimitDeg = 30`, `maxSegLen = 1` and an allocator that always
succeeds. -/
theorem endpoint_preservation_witness :
    (1 : Int) ≤ 3 ∧
    (subdivide_path (CMath.mk Real.sqrt Real.arccos Real.pi) (fun _ => true)
        (some (fun i => [0, 0, 4, 0, 4, 3].getD i (0 : ℝ))) 3 30 1 IntPtr.valid =
      Outcome.ret
        (some (store_points (pipeline (CMath.mk Real.sqrt Real.arccos Real.pi)
          (load_points (fun i => [0, 0, 4, 0, 4, 3].getD i (0 : ℝ)) 3) 30 1)))
        ((pipeline (CMath.mk Real.sqrt Real.arccos Real.pi)
          (load_points (fun i => [0, 0, 4, 0, 4, 3].getD i (0 : ℝ)) 3) 30 1).length : Int)) :=
  ⟨by norm_num,
    (endpoint_preservation (CMath.mk Real.sqrt Real.arccos Real.pi) (fun _ => true)
      (fun i => [0, 0, 4, 0, 4, 3].getD i (0 : ℝ)) 3 30 1 [] (by norm_num) rfl).1.1⟩

/-- C4, as stated, fails: on the right-angle polyline `(0,0), (1,0), (1,1)` over
`ℝ` with `angleLimitDeg = 45 > 0` (and `maxSegLen = 2`, which no segment
exceeds) the pipeline returns `(0,0), (1,0), (1,0.25), (1,0.5), (1,1)`, and the
interior vertex `(1,0)` of that output, between `(0,0)` and `(1,0.25)`, still
has a turn angle above 45 degrees. -/
theorem angle_goal_counterexample :
    (0 : ℝ) < 45 ∧
    pipeline (CMath.mk Real.sqrt Real.arccos Real.pi)
        [{ x := 0, y := 0 }, { x := 1, y := 0 }, { x := 1, y := 1 }] 45 2 =
      [{ x := 0, y := 0 }, { x := 1, y := 0 }, { x := 1, y := 0.25 }, { x := 1, y := 0.5 },
        { x := 1, y := 1 }] ∧
    turn_angle_deg (CMath.mk Real.sqrt Real.arccos Real.pi)
      { x := 0, y := 0 } { x := 1, y := 0 } { x := 1, y := 0.25 } > 45 := by
  have hd1 : distance (CMath.mk Real.sqrt Real.arccos Real.pi) { x := 0, y := 0 } { x := 1, y := 0 }
      ≤ 2 := by
    have : Real.sqrt 1 = 1 := Real.sqrt_one
    simp only [distance]
    norm_num
  have hd2 : distance (CMath.mk Real.sqrt Real.arccos Real.pi) { x := 1, y := 0 } { x := 1, y := 1 }
      ≤ 2 := by
    simp only [distance]
    norm_num
  have hstep1 : subdivide_long_segments (CMath.mk Real.sqrt Real.arccos Real.pi)
      [{ x := 0, y := 0 }, { x := 1, y := 0 }, { x := 1, y := 1 }] 2 =
      [{ x := 0, y := 0 }, { x := 1, y := 0 }, { x := 1, y := 1 }] :=
    subdivide_long_segments_fixed _ _ _
      (List.Chain'.cons hd1 (List.Chain'.cons hd2 (List.chain'_singleton _)))
  have hm1 : mid ({ x := 1, y := 0 } : Pt ℝ) { x := 1, y := 1 } = { x := 1, y := 0.5 } := by
    simp only [mid, Pt.mk.injEq]; norm_num
  have hm2 : mid ({ x := 1, y := 0 } : Pt ℝ) { x := 1, y := 0.5 } = { x := 1, y := 0.25 } := by
    simp only [mid, Pt.mk.injEq]; norm_num
  have t1 : turn_angle_deg (CMath.mk Real.sqrt Real.arccos Real.pi)
      { x := 0, y := 0 } { x := 1, y := 0 } { x := 1, y := 1 } > 45 :=
    right_angle_gt _ _ _ 1 1 (by norm_num) (by norm_num) (by norm_num) (by norm_num)
      (by norm_num)
  have t2 : turn_angle_deg (CMath.mk Real.sqrt Real.arccos Real.pi)
      { x := 0, y := 0 } { x := 1, y := 0 } { x := 1, y := 0.5 } > 45 :=
    right_angle_gt _ _ _ 1 0.5 (by norm_num) (by norm_num) (by norm_num) (by norm_num)
      (by norm_num)
  have t3 : ¬ (45 : ℝ) < turn_angle_deg (CMath.mk Real.sqrt Real.arccos Real.pi)
      { x := 1, y := 0 } { x := 1, y := 0.5 } { x := 1, y := 1 } := by
    rw [straight_angle_zero _ _ _ 0.5 0.5 (by norm_num) (by norm_num) (by norm_num)
      (by norm_num) (by norm_num)]
    norm_num
  have t4 : turn_angle_deg (CMath.mk Real.sqrt Real.arccos Real.pi)
      { x := 0, y := 0 } { x := 1, y := 0 } { x := 1, y := 0.25 } > 45 :=
    right_angle_gt _ _ _ 1 0.25 (by norm_num) (by norm_num) (by norm_num) (by norm_num)
      (by norm_num)
  refine ⟨by norm_num, ?_, t4⟩
  have hg : ¬ ((3 : Nat) ≤ 2 ∨ (45 : ℝ) ≤ 0) := by norm_num
  simp only [pipeline, hstep1, refine_by_angle, List.length_cons, List.length_nil, hg, if_false,
    maxPasses, refine_passes, refine_pass, angle_loop, t1, if_true, hm1, t2, hm2]
  simp [t3]

/-- C4, amended.  Over exact arithmetic, for every polyline and all thresholds:
no interior vertex of the pipeline output has a turn angle above
`angleLimitDeg` if and only if no interior vertex of the output of
`subdivide_long_segments` has one.  The angle stage returns a polyline that
meets the limit unchanged and never removes a violation from one that does
not. -/
theorem angle_goal_amended (m : CMath α) (inp : List (Pt α)) (angleLimitDeg maxSegLen : α)
    (hs : ExactSqrt m) :
    (∀ p c n : Pt α, [p, c, n] <:+: pipeline m inp angleLimitDeg maxSegLen →
      turn_angle_deg m p c n ≤ angleLimitDeg) ↔
    (∀ p c n : Pt α, [p, c, n] <:+: subdivide_long_segments m inp maxSegLen →
      turn_angle_deg m p c n ≤ angleLimitDeg) := by
  constructor
  · intro h p c n hin
    by_contra hv
    obtain ⟨p', c', n', hin', hv'⟩ := refine_by_angle_violation m hs
      (subdivide_long_segments m inp maxSegLen) angleLimitDeg ⟨p, c, n, hin, not_le.mp hv⟩
    exact absurd (h p' c' n' hin') (not_le.mpr hv')
  · intro h p c n hin
    have hno : ¬ HasViolation m angleLimitDeg (subdivide_long_segments m inp maxSegLen) := by
      rintro ⟨p', c', n', hin', hv'⟩
      exact absurd (h p' c' n' hin') (not_le.mpr hv')
    have he : pipeline m inp angleLimitDeg maxSegLen = subdivide_long_segments m inp maxSegLen :=
      refine_by_angle_compliant m _ angleLimitDeg hno
    rw [he] at hin
    exact h p c n hin

/-- Witness for the amended C4: the polyline `(0,0), (1,0), (1,1)` over `ℝ` with
`angleLimitDeg = 45` and `maxSegLen = 2`. -/
theorem angle_goal_amended_witness :
    ExactSqrt (CMath.mk Real.sqrt Real.arccos Real.pi) ∧
    ((∀ p c n : Pt ℝ, [p, c, n] <:+: pipeline (CMath.mk Real.sqrt Real.arccos Real.pi)
        [{ x := 0, y := 0 }, { x := 1, y := 0 }, { x := 1, y := 1 }] 45 2 →
      turn_angle_deg (CMath.mk Real.sqrt Real.arccos Real.pi) p c n ≤ 45) ↔
    (∀ p c n : Pt ℝ, [p, c, n] <:+: subdivide_long_segments (CMath.mk Real.sqrt Real.arccos Real.pi)
        [{ x := 0, y := 0 }, { x := 1, y := 0 }, { x := 1, y := 1 }] 2 →
      turn_angle_deg (CMath.mk Real.sqrt Real.arccos Real.pi) p c n ≤ 45)) :=
  ⟨exactSqrt_real,
    angle_goal_amended (CMath.mk Real.sqrt Real.arccos Real.pi)
      [{ x := 0, y := 0 }, { x := 1, y := 0 }, { x := 1, y := 1 }] 45 2 exactSqrt_real⟩

/-- C6 (pass-through on disabled thresholds).  If `maxSegLen ≤ 0` and
`angleLimitDeg ≤ 0` then the pipeline returns its input sequence unchanged, and
a call of `subdivide_path` with `nPts ≥ 1` points, a non-null `outLenPts` and a
successful allocation returns exactly the `2 * nPts` doubles it read and
reports `nPts` points. -/
theorem pass_through_disabled (m : CMath α) (malloc : Nat → Bool) (xy : Nat → α) (nPts : Int)
    (angleLimitDeg maxSegLen : α) (inp : List (Pt α)) (hM : maxSegLen ≤ 0)
    (hA : angleLimitDeg ≤ 0) (hn : 1 ≤ nPts) (hm : malloc (nPts.toNat * 2 * 8) = true) :
    pipeline m inp angleLimitDeg maxSegLen = inp ∧
    subdivide_path m malloc (some xy) nPts angleLimitDeg maxSegLen IntPtr.valid =
      Outcome.ret (some ((List.range (2 * nPts.toNat)).map xy)) nPts := by
  have hp : ∀ l : List (Pt α), pipeline m l angleLimitDeg maxSegLen = l := fun l => by
    simp only [pipeline, subdivide_long_segments_disabled m l maxSegLen hM,
      refine_by_angle_disabled m l angleLimitDeg hA]
  refine ⟨hp inp, ?_⟩
  rw [subdivide_path_valid m malloc xy nPts angleLimitDeg maxSegLen hn, hp, load_points_length,
    hm]
  have hcast : ((nPts.toNat : Int)) = nPts := Int.toNat_of_nonneg (by omega)
  simp only [Bool.true_eq_false, if_false, hcast]
  rw [load_points, store_load_points]

/-- Witness for C6: two points `(0,1), (2,3)` over `ℝ` with both thresholds `0`. -/
theorem pass_through_disabled_witness :
    (0 : ℝ) ≤ 0 ∧ (1 : Int) ≤ 2 ∧
    subdivide_path (CMath.mk Real.sqrt Real.arccos Real.pi) (fun _ => true)
        (some (fun i => (i : ℝ))) 2 0 0 IntPtr.valid =
      Outcome.ret (some ((List.range (2 * (2 : Int).toNat)).map (fun i => (i : ℝ)))) 2 :=
  ⟨le_refl 0, by norm_num,
    (pass_through_disabled (CMath.mk Real.sqrt Real.arccos Real.pi) (fun _ => true)
      (fun i => (i : ℝ)) 2 0 0 [] (le_refl 0) (le_refl 0) (by norm_num) rfl).2⟩

/-- C7 (monotonic growth).  For all thresholds, each stage returns at least as
many points as it received, so does the pipeline, and whenever
`subdivide_path` returns a buffer the point count it reports is at least
`nPts`. -/
theorem monotonic_growth (m : CMath α) (malloc : Nat → Bool) (xy : Nat → α) (nPts : Int)
    (angleLimitDeg maxSegLen : α) (inp : List (Pt α)) :
    inp.length ≤ (subdivide_long_segments m inp maxSegLen).length ∧
    inp.length ≤ (refine_by_angle m inp angleLimitDeg).length ∧
    inp.length ≤ (pipeline m inp angleLimitDeg maxSegLen).length ∧
    ∀ (buf : List α) (outLen : Int),
      subdivide_path m malloc (some xy) nPts angleLimitDeg maxSegLen IntPtr.valid =
        Outcome.ret (some buf) outLen → nPts ≤ outLen := by
  refine ⟨subdivide_long_segments_length m inp maxSegLen,
    refine_by_angle_length m inp angleLimitDeg, pipeline_length m inp angleLimitDeg maxSegLen, ?_⟩
  intro buf outLen hret
  rcases le_or_lt nPts 0 with h0 | h1
  · rw [subdivide_path_invalid m malloc (some xy) nPts angleLimitDeg maxSegLen (Or.inr h0)] at hret
    simp at hret
  · rw [subdivide_path_valid m malloc xy nPts angleLimitDeg maxSegLen (by omega)] at hret
    have hl := pipeline_length m (load_points xy nPts) angleLimitDeg maxSegLen
    rw [load_points_length] at hl
    split at hret
    · simp at hret
    · simp only [Outcome.ret.injEq] at hret
      omega

/-- C9 (null `outLenPts`).  Whatever `xy`, `nPts`, the thresholds and the
allocator are, a call of `subdivide_path` with `outLenPts == nullptr` executes
the store `*outLenPts = 0` of line 93 through the null pointer: the guard of
line 92 sends a null `outLenPts` into the branch that dereferences it. -/
theorem null_outLenPts_is_dereferenced (m : CMath α) (malloc : Nat → Bool)
    (xy : Option (Nat → α)) (nPts : Int) (angleLimitDeg maxSegLen : α) :
    subdivide_path m malloc xy nPts angleLimitDeg maxSegLen IntPtr.null = Outcome.null_store :=
  subdivide_path_null m malloc xy nPts angleLimitDeg maxSegLen

/-- C10 (invalid-input handling).  With a non-null `outLenPts`: if `xy` is null
or `nPts ≤ 0` the call returns a null buffer and reports 0 points, for all
thresholds; if `xy` is non-null, `nPts ≥ 1` and the allocation succeeds, it
returns the flattened pipeline output and reports its length, which is at
least 1. -/
theorem invalid_input_handling (m : CMath α) (malloc : Nat → Bool) (xy : Option (Nat → α))
    (mem : Nat → α) (nPts : Int) (angleLimitDeg maxSegLen : α) :
    ((xy = none ∨ nPts ≤ 0) →
      subdivide_path m malloc xy nPts angleLimitDeg maxSegLen IntPtr.valid =
        Outcome.ret none 0) ∧
    (1 ≤ nPts →
      malloc ((pipeline m (load_points mem nPts) angleLimitDeg maxSegLen).length * 2 * 8) = true →
      subdivide_path m malloc (some mem) nPts angleLimitDeg maxSegLen IntPtr.valid =
        Outcome.ret
          (some (store_points (pipeline m (load_points mem nPts) angleLimitDeg maxSegLen)))
          ((pipeline m (load_points mem nPts) angleLimitDeg maxSegLen).length : Int) ∧
      (1 : Int) ≤ ((pipeline m (load_points mem nPts) angleLimitDeg maxSegLen).length : Int)) := by
  refine ⟨subdivide_path_invalid m malloc xy nPts angleLimitDeg maxSegLen, ?_⟩
  intro hn hm
  constructor
  · rw [subdivide_path_valid m malloc mem nPts angleLimitDeg maxSegLen hn, hm]
    simp
  · have hl := pipeline_length m (load_points mem nPts) angleLimitDeg maxSegLen
    rw [load_points_length] at hl
    omega

/-- Witness for C10: a null `xy` with `nPts = 0`, and the two points
`(0,1), (2,3)` over `ℝ` with thresholds `30` and `1` and an allocator that
always succeeds. -/
theorem invalid_input_handling_witness :
    subdivide_path (CMath.mk Real.sqrt Real.arccos Real.pi) (fun _ => true) none 0 30 1 IntPtr.valid =
      Outcome.ret none 0 ∧
    (1 : Int) ≤ ((pipeline (CMath.mk Real.sqrt Real.arccos Real.pi)
      (load_points (fun i => (i : ℝ)) 2) 30 1).length : Int) :=
  ⟨(invalid_input_handling (CMath.mk Real.sqrt Real.arccos Real.pi) (fun _ => true) none
      (fun i => (i : ℝ)) 0 30 1).1 (Or.inl rfl),
    ((invalid_input_handling (CMath.mk Real.sqrt Real.arccos Real.pi) (fun _ => true) none
      (fun i => (i : ℝ)) 2 30 1).2 (by norm_num) rfl).2⟩

/-- C12 (degenerate turn angle).  With `sqrt 0 = 0`, for every triple with
`prev = curr` or `curr = next`, `turn_angle_deg` returns exactly `0` through the
early return of line 26, so the division of line 27 is not executed, and for
every `angleLimitDeg > 0` the loop of `refine_by_angle` pushes `curr` without a
midpoint after it and leaves `inserted` as the rest of the loop sets it. -/
theorem degenerate_turn_angle (m : CMath α) (prev curr next : Pt α) (angleLimitDeg : α)
    (rest : List (Pt α)) (h0 : m.sqrt 0 = 0) (hdeg : prev = curr ∨ curr = next)
    (hA : 0 < angleLimitDeg) :
    turn_angle_deg m prev curr next = 0 ∧
    turn_angle_trace m prev curr next = none ∧
    angle_loop m angleLimitDeg (prev :: curr :: next :: rest) =
      (curr :: (angle_loop m angleLimitDeg (curr :: next :: rest)).1,
        (angle_loop m angleLimitDeg (curr :: next :: rest)).2) := by
  have ht := turn_angle_degenerate m h0 prev curr next hdeg
  have hz : turn_angle_deg m prev curr next = 0 := by
    rw [turn_angle_deg_trace, ht]
  refine ⟨hz, ht, ?_⟩
  simp only [angle_loop, hz]
  rw [if_neg (not_lt.mpr hA.le)]

/-- Witness for C12: three coincident points `(2,3)` over `ℝ` with
`angleLimitDeg = 30`. -/
theorem degenerate_turn_angle_witness :
    Real.sqrt 0 = 0 ∧ (0 : ℝ) < 30 ∧
    turn_angle_deg (CMath.mk Real.sqrt Real.arccos Real.pi)
      { x := 2, y := 3 } { x := 2, y := 3 } { x := 2, y := 3 } = 0 :=
  ⟨Real.sqrt_zero, by norm_num,
    (degenerate_turn_angle (CMath.mk Real.sqrt Real.arccos Real.pi)
      { x := 2, y := 3 } { x := 2, y := 3 } { x := 2, y := 3 } 30 [] Real.sqrt_zero
      (Or.inl rfl) (by norm_num)).1⟩

/-- C13 (example 1).  Over `ℝ`, for the input `(0,0), (10,0)` with
`maxSegLen = 3` and `angleLimitDeg = 0` the pipeline returns exactly the five
points `(0,0), (2.5,0), (5,0), (7.5,0), (10,0)`, every two consecutive of which
are at distance `2.5`, and `subdivide_path` returns these ten doubles and
reports 5 points. -/
theorem example_one :
    pipeline (CMath.mk Real.sqrt Real.arccos Real.pi)
        [{ x := 0, y := 0 }, { x := 10, y := 0 }] 0 3 =
      [{ x := 0, y := 0 }, { x := 2.5, y := 0 }, { x := 5, y := 0 }, { x := 7.5, y := 0 },
        { x := 10, y := 0 }] ∧
    List.Chain' (fun p q => distance (CMath.mk Real.sqrt Real.arccos Real.pi) p q = 2.5)
      [{ x := 0, y := 0 }, { x := 2.5, y := 0 }, { x := 5, y := 0 }, { x := 7.5, y := 0 },
        { x := 10, y := 0 }] ∧
    subdivide_path (CMath.mk Real.sqrt Real.arccos Real.pi) (fun _ => true)
        (some (fun i => [0, 0, 10, 0].getD i (0 : ℝ))) 2 0 3 IntPtr.valid =
      Outcome.ret (some [0, 0, 2.5, 0, 5, 0, 7.5, 0, 10, 0]) 5 := by
  have hd : distance (CMath.mk Real.sqrt Real.arccos Real.pi)
      { x := 0, y := 0 } { x := 10, y := 0 } = 10 :=
    distance_eval _ exactSqrt_real _ _ 10 (by norm_num) (by norm_num)
  have hceil : ⌈(10 : ℝ) / 3⌉ = 4 := by
    rw [Int.ceil_eq_iff]
    norm_num
  have hins : inserted_points (CMath.mk Real.sqrt Real.arccos Real.pi)
      { x := 0, y := 0 } { x := 10, y := 0 } 3 =
      [{ x := 2.5, y := 0 }, { x := 5, y := 0 }, { x := 7.5, y := 0 }] := by
    have h3 : Int.toNat (4 - 1) = 3 := rfl
    simp only [inserted_points, hd, hceil, split_points, h3]
    norm_num [List.range_succ]
  have hp : pipeline (CMath.mk Real.sqrt Real.arccos Real.pi)
      [{ x := 0, y := 0 }, { x := 10, y := 0 }] 0 3 =
      [{ x := 0, y := 0 }, { x := 2.5, y := 0 }, { x := 5, y := 0 }, { x := 7.5, y := 0 },
        { x := 10, y := 0 }] := by
    have hg : ¬ ((2 : Nat) ≤ 1 ∨ (3 : ℝ) ≤ 0) := by norm_num
    simp only [pipeline, subdivide_long_segments, List.length_cons, List.length_nil, hg,
      if_false, long_segments_loop, hins]
    simp [refine_by_angle]
  refine ⟨hp, ?_, ?_⟩
  · have e : ∀ a b : ℝ, b - a = 2.5 →
        distance (CMath.mk Real.sqrt Real.arccos Real.pi) { x := a, y := 0 } { x := b, y := 0 }
          = 2.5 := fun a b hab =>
      distance_eval _ exactSqrt_real _ _ 2.5 (by norm_num) (by simp only [hab]; norm_num)
    exact List.Chain'.cons (e _ _ (by norm_num)) (List.Chain'.cons (e _ _ (by norm_num))
      (List.Chain'.cons (e _ _ (by norm_num)) (List.Chain'.cons (e _ _ (by norm_num))
        (List.chain'_singleton _))))
  · have hl : load_points (fun i => [0, 0, 10, 0].getD i (0 : ℝ)) 2 =
        [{ x := 0, y := 0 }, { x := 10, y := 0 }] := by
      simp [load_points, List.range_succ]
    rw [subdivide_path_valid _ _ _ _ _ _ (by norm_num), hl, hp]
    simp [store_points]

/-- C14 (example 3).  Over `ℝ`, for the zig-zag `(0,0), (1,0), (0,1), (1,1)` with
`angleLimitDeg = 30` and `maxSegLen = 0` (disabled): the turn angles at `(1,0)`
and `(0,1)` exceed 30 degrees, the first pass returns
`(0,0), (1,0), (0.5,0.5), (0,1), (0.5,1), (1,1)`, the call executes 2 passes, and
the pipeline returns the 8 points
`(0,0), (1,0), (0.75,0.25), (0.5,0.5), (0,1), (0.25,1), (0.5,1), (1,1)`. -/
theorem example_three :
    (turn_angle_deg (CMath.mk Real.sqrt Real.arccos Real.pi)
        { x := 0, y := 0 } { x := 1, y := 0 } { x := 0, y := 1 } > 30 ∧
      turn_angle_deg (CMath.mk Real.sqrt Real.arccos Real.pi)
        { x := 1, y := 0 } { x := 0, y := 1 } { x := 1, y := 1 } > 30) ∧
    (refine_pass (CMath.mk Real.sqrt Real.arccos Real.pi) 30
        [{ x := 0, y := 0 }, { x := 1, y := 0 }, { x := 0, y := 1 }, { x := 1, y := 1 }]).1 =
      [{ x := 0, y := 0 }, { x := 1, y := 0 }, { x := 0.5, y := 0.5 }, { x := 0, y := 1 },
        { x := 0.5, y := 1 }, { x := 1, y := 1 }] ∧
    refine_by_angle_passes (CMath.mk Real.sqrt Real.arccos Real.pi)
        [{ x := 0, y := 0 }, { x := 1, y := 0 }, { x := 0, y := 1 }, { x := 1, y := 1 }] 30 = 2 ∧
    pipeline (CMath.mk Real.sqrt Real.arccos Real.pi)
        [{ x := 0, y := 0 }, { x := 1, y := 0 }, { x := 0, y := 1 }, { x := 1, y := 1 }] 30 0 =
      [{ x := 0, y := 0 }, { x := 1, y := 0 }, { x := 0.75, y := 0.25 }, { x := 0.5, y := 0.5 },
        { x := 0, y := 1 }, { x := 0.25, y := 1 }, { x := 0.5, y := 1 }, { x := 1, y := 1 }] := by
  have big : ∀ p c n : Pt ℝ,
      0 < (c.x - p.x) * (c.x - p.x) + (c.y - p.y) * (c.y - p.y) →
      0 < (n.x - c.x) * (n.x - c.x) + (n.y - c.y) * (n.y - c.y) →
      (c.x - p.x) * (n.x - c.x) + (c.y - p.y) * (n.y - c.y) ≤ 0 →
      (30 : ℝ) < turn_angle_deg (CMath.mk Real.sqrt Real.arccos Real.pi) p c n :=
    fun p c n h1 h2 hd => lt_of_lt_of_le (by norm_num) (turn_angle_deg_obtuse p c n h1 h2 hd)
  have flat : ∀ p c n : Pt ℝ, n.x - c.x = 1 * (c.x - p.x) → n.y - c.y = 1 * (c.y - p.y) →
      ¬ (30 : ℝ) < turn_angle_deg (CMath.mk Real.sqrt Real.arccos Real.pi) p c n :=
    fun p c n hx hy => by
      rw [turn_angle_deg_straight _ exactSqrt_real Real.arccos_one p c n 1 zero_lt_one hx hy]
      norm_num
  have a1 := big { x := 0, y := 0 } { x := 1, y := 0 } { x := 0, y := 1 }
    (by norm_num) (by norm_num) (by norm_num)
  have a2 := big { x := 1, y := 0 } { x := 0, y := 1 } { x := 1, y := 1 }
    (by norm_num) (by norm_num) (by norm_num)
  have b1 := big { x := 0, y := 0 } { x := 1, y := 0 } { x := 0.5, y := 0.5 }
    (by norm_num) (by norm_num) (by norm_num)
  have b2 := flat { x := 1, y := 0 } { x := 0.5, y := 0.5 } { x := 0, y := 1 }
    (by norm_num) (by norm_num)
  have b3 := big { x := 0.5, y := 0.5 } { x := 0, y := 1 } { x := 0.5, y := 1 }
    (by norm_num) (by norm_num) (by norm_num)
  have b4 := flat { x := 0, y := 1 } { x := 0.5, y := 1 } { x := 1, y := 1 }
    (by norm_num) (by norm_num)
  have m1 : mid ({ x := 1, y := 0 } : Pt ℝ) { x := 0, y := 1 } = { x := 0.5, y := 0.5 } := by
    simp only [mid, Pt.mk.injEq]; norm_num
  have m2 : mid ({ x := 0, y := 1 } : Pt ℝ) { x := 1, y := 1 } = { x := 0.5, y := 1 } := by
    simp only [mid, Pt.mk.injEq]; norm_num
  have m3 : mid ({ x := 1, y := 0 } : Pt ℝ) { x := 0.5, y := 0.5 } = { x := 0.75, y := 0.25 } := by
    simp only [mid, Pt.mk.injEq]; norm_num
  have m4 : mid ({ x := 0, y := 1 } : Pt ℝ) { x := 0.5, y := 1 } = { x := 0.25, y := 1 } := by
    simp only [mid, Pt.mk.injEq]; norm_num
  have p1 : refine_pass (CMath.mk Real.sqrt Real.arccos Real.pi) 30
      [{ x := 0, y := 0 }, { x := 1, y := 0 }, { x := 0, y := 1 }, { x := 1, y := 1 }] =
      ([{ x := 0, y := 0 }, { x := 1, y := 0 }, { x := 0.5, y := 0.5 }, { x := 0, y := 1 },
        { x := 0.5, y := 1 }, { x := 1, y := 1 }], true) := by
    simp only [refine_pass, angle_loop, gt_iff_lt, a1, a2, if_true, m1, m2]
    simp
  have p2 : refine_pass (CMath.mk Real.sqrt Real.arccos Real.pi) 30
      [{ x := 0, y := 0 }, { x := 1, y := 0 }, { x := 0.5, y := 0.5 }, { x := 0, y := 1 },
        { x := 0.5, y := 1 }, { x := 1, y := 1 }] =
      ([{ x := 0, y := 0 }, { x := 1, y := 0 }, { x := 0.75, y := 0.25 }, { x := 0.5, y := 0.5 },
        { x := 0, y := 1 }, { x := 0.25, y := 1 }, { x := 0.5, y := 1 }, { x := 1, y := 1 }],
        true) := by
    simp only [refine_pass, angle_loop, gt_iff_lt, b1, b2, b3, b4, if_true, if_false, m3, m4]
    simp
  have hg : ¬ ((4 : Nat) ≤ 2 ∨ (30 : ℝ) ≤ 0) := by norm_num
  refine ⟨⟨a1, a2⟩, by rw [p1], ?_, ?_⟩
  · simp only [refine_by_angle_passes, List.length_cons, List.length_nil, hg, if_false,
      maxPasses, passes_run, p1, p2]
    simp
  · simp only [pipeline, subdivide_long_segments_disabled _ _ (0 : ℝ) (le_refl 0),
      refine_by_angle, List.length_cons, List.length_nil, hg, if_false, maxPasses,
      refine_passes, p1, p2]
    simp

/-- C15 (example 2).  With `sqrt 0 = 0`, for the input `(0,0), (0,0)` and all
values of the two thresholds the pipeline returns the input: the segment has
length `0`, which no positive `maxSegLen` is below, so stage 1 inserts nothing
and never reaches the division of line 42, and two points have no interior
vertex. -/
theorem example_two (m : CMath α) (angleLimitDeg maxSegLen : α) (h0 : m.sqrt 0 = 0) :
    pipeline m [{ x := 0, y := 0 }, { x := 0, y := 0 }] angleLimitDeg maxSegLen =
      [{ x := 0, y := 0 }, { x := 0, y := 0 }] ∧
    subdivide_long_segments m [{ x := 0, y := 0 }, { x := 0, y := 0 }] maxSegLen =
      [{ x := 0, y := 0 }, { x := 0, y := 0 }] ∧
    distance m { x := 0, y := 0 } { x := 0, y := 0 } = 0 := by
  have hd : distance m { x := 0, y := 0 } { x := 0, y := 0 } = 0 := by
    simp [distance, h0]
  have h1 : subdivide_long_segments m [{ x := 0, y := 0 }, { x := 0, y := 0 }] maxSegLen =
      [{ x := 0, y := 0 }, { x := 0, y := 0 }] := by
    rcases le_or_lt maxSegLen 0 with h | h
    · exact subdivide_long_segments_disabled m _ maxSegLen h
    · apply subdivide_long_segments_fixed
      exact List.Chain'.cons (by rw [hd]; exact h.le) (List.chain'_singleton _)
  refine ⟨?_, h1, hd⟩
  simp [pipeline, h1, refine_by_angle]

/-- Witness for C15: over `ℝ` with `angleLimitDeg = 30` and `maxSegLen = 1`. -/
theorem example_two_witness :
    Real.sqrt 0 = 0 ∧
    pipeline (CMath.mk Real.sqrt Real.arccos Real.pi)
        [{ x := 0, y := 0 }, { x := 0, y := 0 }] 30 1 =
      [{ x := 0, y := 0 }, { x := 0, y := 0 }] :=
  ⟨Real.sqrt_zero,
    (example_two (CMath.mk Real.sqrt Real.arccos Real.pi) 30 1 Real.sqrt_zero).1⟩

/-- C17 (stage-level identity).  `subdivide_long_segments` returns its input
unchanged when the input has at most one point or `maxSegLen ≤ 0`, and
`refine_by_angle` returns its input unchanged when the input has at most two
points or `angleLimitDeg ≤ 0`. -/
theorem stage_identity (m : CMath α) (inp : List (Pt α)) (angleLimitDeg maxSegLen : α) :
    ((inp.length ≤ 1 ∨ maxSegLen ≤ 0) → subdivide_long_segments m inp maxSegLen = inp) ∧
    ((inp.length ≤ 2 ∨ angleLimitDeg ≤ 0) → refine_by_angle m inp angleLimitDeg = inp) := by
  constructor
  · intro h
    simp only [subdivide_long_segments, h, if_true]
  · intro h
    simp only [refine_by_angle, h, if_true]

/-- Witness for C17: a single point with `maxSegLen = 1`, and two points with
`angleLimitDeg = 30`, over `ℝ`. -/
theorem stage_identity_witness :
    subdivide_long_segments (CMath.mk Real.sqrt Real.arccos Real.pi)
        [{ x := 0, y := 0 }] 1 = [{ x := 0, y := 0 }] ∧
    refine_by_angle (CMath.mk Real.sqrt Real.arccos Real.pi)
        [{ x := 0, y := 0 }, { x := 1, y := 0 }] 30 =
      [{ x := 0, y := 0 }, { x := 1, y := 0 }] :=
  ⟨(stage_identity (CMath.mk Real.sqrt Real.arccos Real.pi) [{ x := 0, y := 0 }] 30 1).1
      (Or.inl (by simp)),
    (stage_identity (CMath.mk Real.sqrt Real.arccos Real.pi)
      [{ x := 0, y := 0 }, { x := 1, y := 0 }] 30 1).2 (Or.inl (by simp))⟩

/-- C18, as stated, fails: the two-point polyline `(0,0), (1,0)` over `ℝ` has no
interior vertex at all, hence none above `angleLimitDeg = 30 > 0`, yet
`refine_by_angle` executes no pass on it, not one: line 58 returns before the
pass loop. -/
theorem early_stop_counterexample :
    (0 : ℝ) < 30 ∧
    (∀ p c n : Pt ℝ, [p, c, n] <:+: [({ x := 0, y := 0 } : Pt ℝ), { x := 1, y := 0 }] →
      turn_angle_deg (CMath.mk Real.sqrt Real.arccos Real.pi) p c n ≤ 30) ∧
    refine_by_angle_passes (CMath.mk Real.sqrt Real.arccos Real.pi)
      [{ x := 0, y := 0 }, { x := 1, y := 0 }] 30 = 0 ∧
    refine_by_angle_passes (CMath.mk Real.sqrt Real.arccos Real.pi)
      [{ x := 0, y := 0 }, { x := 1, y := 0 }] 30 ≠ 1 := by
  have h0 : refine_by_angle_passes (CMath.mk Real.sqrt Real.arccos Real.pi)
      [{ x := 0, y := 0 }, { x := 1, y := 0 }] 30 = 0 := by
    simp [refine_by_angle_passes]
  refine ⟨by norm_num, ?_, h0, by rw [h0]; norm_num⟩
  intro p c n hin
  exact absurd hin (no_triple_of_short _ (by simp) p c n)

/-- C18, amended.  For every polyline and every `angleLimitDeg > 0`, if no
interior vertex of the input has a turn angle above `angleLimitDeg` then
`refine_by_angle` returns a sequence equal to its input; on an input of at least
three points it executes exactly one pass, which inserts nothing (it returns the
points it read and leaves `inserted` false), and on an input of at most two
points it executes no pass.  For every input and every threshold it executes at
most 2 passes. -/
theorem early_stop_amended (m : CMath α) (inp : List (Pt α)) (angleLimitDeg : α)
    (hA : 0 < angleLimitDeg)
    (hno : ∀ p c n : Pt α, [p, c, n] <:+: inp → turn_angle_deg m p c n ≤ angleLimitDeg) :
    refine_by_angle m inp angleLimitDeg = inp ∧
    (3 ≤ inp.length →
      refine_by_angle_passes m inp angleLimitDeg = 1 ∧
      refine_pass m angleLimitDeg inp = (inp, false)) ∧
    (inp.length ≤ 2 → refine_by_angle_passes m inp angleLimitDeg = 0) ∧
    (∀ (l : List (Pt α)) (limit : α), refine_by_angle_passes m l limit ≤ 2) := by
  have hnv : ¬ HasViolation m angleLimitDeg inp := by
    rintro ⟨p, c, n, hin, hv⟩
    exact absurd (hno p c n hin) (not_le.mpr hv)
  refine ⟨refine_by_angle_compliant m inp angleLimitDeg hnv, ?_, ?_,
    fun l limit => refine_by_angle_passes_le m l limit⟩
  · intro h3
    have hp := refine_pass_compliant m angleLimitDeg inp (by omega) hnv
    refine ⟨?_, hp⟩
    have hg : ¬ (inp.length ≤ 2 ∨ angleLimitDeg ≤ 0) := by
      rintro (h | h)
      · omega
      · exact absurd h (not_le.mpr hA)
    simp [refine_by_angle_passes, hg, maxPasses, passes_run, hp]
  · intro h2
    simp [refine_by_angle_passes, h2]

/-- Witness for the amended C18: the straight polyline `(0,0), (1,0), (2,0)` over
`ℝ` with `angleLimitDeg = 30`. -/
theorem early_stop_amended_witness :
    (0 : ℝ) < 30 ∧
    refine_by_angle (CMath.mk Real.sqrt Real.arccos Real.pi)
        [{ x := 0, y := 0 }, { x := 1, y := 0 }, { x := 2, y := 0 }] 30 =
      [{ x := 0, y := 0 }, { x := 1, y := 0 }, { x := 2, y := 0 }] ∧
    refine_by_angle_passes (CMath.mk Real.sqrt Real.arccos Real.pi)
        [{ x := 0, y := 0 }, { x := 1, y := 0 }, { x := 2, y := 0 }] 30 = 1 := by
  have hno : ∀ p c n : Pt ℝ,
      [p, c, n] <:+: [({ x := 0, y := 0 } : Pt ℝ), { x := 1, y := 0 }, { x := 2, y := 0 }] →
      turn_angle_deg (CMath.mk Real.sqrt Real.arccos Real.pi) p c n ≤ 30 := by
    intro p c n hin
    have heq : [p, c, n] = [({ x := 0, y := 0 } : Pt ℝ), { x := 1, y := 0 }, { x := 2, y := 0 }] :=
      List.IsInfix.eq_of_length hin (by simp)
    simp only [List.cons.injEq, and_true] at heq
    obtain ⟨rfl, rfl, rfl⟩ := heq
    rw [turn_angle_deg_straight _ exactSqrt_real Real.arccos_one _ _ _ 1 zero_lt_one
      (by norm_num) (by norm_num)]
    norm_num
  have h := early_stop_amended (CMath.mk Real.sqrt Real.arccos Real.pi)
    [{ x := 0, y := 0 }, { x := 1, y := 0 }, { x := 2, y := 0 }] 30 (by norm_num) hno
  exact ⟨by norm_num, h.1, (h.2.1 (by simp)).1⟩

/-- C19 (existing points are kept in order).  For every polyline and all
thresholds the input sequence is a subsequence, in order, of the output of each
stage and of the pipeline: the output is the input with further points inserted
between its points. -/
theorem input_is_subsequence (m : CMath α) (inp : List (Pt α)) (angleLimitDeg maxSegLen : α) :
    List.Sublist inp (pipeline m inp angleLimitDeg maxSegLen) ∧
    List.Sublist inp (subdivide_long_segments m inp maxSegLen) ∧
    List.Sublist inp (refine_by_angle m inp angleLimitDeg) :=
  ⟨List.Sublist.trans (subdivide_long_segments_sublist m inp maxSegLen)
      (refine_by_angle_sublist m _ angleLimitDeg),
    subdivide_long_segments_sublist m inp maxSegLen,
    refine_by_angle_sublist m inp angleLimitDeg⟩

/-- C20 (exact output size of the angle stage).  Over exact arithmetic (`sqrt`
exact, `acos 1 = 0`), for every polyline of `n ≥ 3` points and every
`angleLimitDeg > 0`, `refine_by_angle` returns exactly `n + 2k` points, where
`k` is the number of interior vertices of the input whose turn angle exceeds
`angleLimitDeg`, and so at most `3n - 4` points.  The first pass returns
`n + k` points, among which again exactly `k` vertices exceed the limit: the
vertices it read keep their turn angle and the midpoints it inserted have turn
angle 0. -/
theorem angle_stage_output_size (m : CMath α) (inp : List (Pt α)) (angleLimitDeg : α)
    (hs : ExactSqrt m) (ha : m.acos 1 = 0) (hn : 3 ≤ inp.length) (hA : 0 < angleLimitDeg) :
    (refine_by_angle m inp angleLimitDeg).length =
      inp.length + 2 * count_violations m angleLimitDeg inp ∧
    (refine_by_angle m inp angleLimitDeg).length ≤ 3 * inp.length - 4 ∧
    (refine_pass m angleLimitDeg inp).1.length =
      inp.length + count_violations m angleLimitDeg inp ∧
    count_violations m angleLimitDeg (refine_pass m angleLimitDeg inp).1 =
      count_violations m angleLimitDeg inp := by
  have hl1 := refine_pass_length_count m angleLimitDeg inp (by omega)
  have hc1 := refine_pass_count m hs ha angleLimitDeg hA.le inp (by omega)
  have hl2 := refine_pass_length_count m angleLimitDeg (refine_pass m angleLimitDeg inp).1
    (by omega)
  have hle := count_violations_le m angleLimitDeg inp
  have hg : ¬ (inp.length ≤ 2 ∨ angleLimitDeg ≤ 0) := by
    rintro (h | h)
    · omega
    · exact absurd h (not_le.mpr hA)
  have hlen : (refine_by_angle m inp angleLimitDeg).length =
      inp.length + 2 * count_violations m angleLimitDeg inp := by
    simp only [refine_by_angle, hg, if_false, maxPasses, refine_passes]
    cases hflag : (refine_pass m angleLimitDeg inp).2 with
    | false =>
      have h0 : count_violations m angleLimitDeg inp = 0 :=
        angle_loop_flag_false m angleLimitDeg inp hflag
      simp only [Bool.not_false, if_true]
      omega
    | true =>
      simp only [Bool.not_true, Bool.false_eq_true, if_false, ite_self]
      omega
  refine ⟨hlen, ?_, hl1, hc1⟩
  rw [hlen]
  have : max inp.length 2 = inp.length := max_eq_left (by omega)
  omega

/-- Witness for C20: the right-angle polyline `(0,0), (1,0), (1,1)` over `ℝ` with
`angleLimitDeg = 45`. -/
theorem angle_stage_output_size_witness :
    ExactSqrt (CMath.mk Real.sqrt Real.arccos Real.pi) ∧ Real.arccos 1 = 0 ∧
    3 ≤ [({ x := 0, y := 0 } : Pt ℝ), { x := 1, y := 0 }, { x := 1, y := 1 }].length ∧
    (0 : ℝ) < 45 ∧
    (refine_by_angle (CMath.mk Real.sqrt Real.arccos Real.pi)
        [{ x := 0, y := 0 }, { x := 1, y := 0 }, { x := 1, y := 1 }] 45).length =
      [({ x := 0, y := 0 } : Pt ℝ), { x := 1, y := 0 }, { x := 1, y := 1 }].length +
        2 * count_violations (CMath.mk Real.sqrt Real.arccos Real.pi) 45
          [{ x := 0, y := 0 }, { x := 1, y := 0 }, { x := 1, y := 1 }] :=
  ⟨exactSqrt_real, Real.arccos_one, by simp, by norm_num,
    (angle_stage_output_size (CMath.mk Real.sqrt Real.arccos Real.pi)
      [{ x := 0, y := 0 }, { x := 1, y := 0 }, { x := 1, y := 1 }] 45 exactSqrt_real
      Real.arccos_one (by simp) (by norm_num)).1⟩

end Claims

end Subdivide
